import Mathlib

/-!
Verification development for the `coauthored` repository.

The development shallowly embeds the two core components:

* the codec (`core.js`, provided as `src/unnamed/part_008`): `b64Encode`,
  `b64Decode`, `encodeValue`, `decodeValue`, `flatten`, `unflatten`,
  `encode`, `decode`;
* the rule engine (`src/unnamed/part_010`): `tokenize`, `parse`,
  `evaluate`, `compile`;
* the assessment glue (`src/config.js`): `computeContext`, `assess`.

Modelling conventions:

* JavaScript strings are modelled as `List Char` (sequences of Unicode
  scalar values; the sources never construct lone surrogates).
* JavaScript numbers appearing in the codec are modelled as `Int`: the
  decoder only ever produces integers (`parseInt` on `^-?\d+$` matches),
  and every numeric literal in the claims is an integer.  Rule-engine
  numbers are modelled as `Rat`, exact for every value the claims use.
* `b64Encode` models `btoa(unescape(encodeURIComponent(str)))` with the
  `+/` → `-_` replacement and `=`-padding strip, i.e. base64url of the
  UTF-8 bytes.  `b64Decode` models the inverse composite including the
  forgiving-base64 behaviour of `atob` (ASCII-whitespace strip, padding
  strip, invalid characters throw) and the strictness of
  `decodeURIComponent` (malformed UTF-8 throws); a thrown error is caught
  by the source and turned into `''`.
* The module is an ES module, hence strict mode: property access with
  `in` on a primitive, and property assignment on a primitive, throw
  `TypeError`.  `unflatten` models that by returning `Except.error`.
  (Descending into an *array* would not throw in JS; no claim and no
  theorem below exercises that case, and the model conservatively treats
  every non-object the same way.)
-/

namespace Coauthored

/-- Shorthand turning a Lean string literal into the `List Char` model of a
JavaScript string. -/
def jstr (s : String) : List Char := s.data

/-! ## Generic string helpers (JS `String.prototype.split`, `indexOf`, `join`) -/

/-- Model of JS `str.split(sep)` for a single-character separator: splitting
never yields the empty list, and empty parts are kept. -/
def splitOnChar (sep : Char) : List Char → List (List Char)
  | [] => [[]]
  | c :: rest =>
    if c = sep then [] :: splitOnChar sep rest
    else
      match splitOnChar sep rest with
      | s :: ss => (c :: s) :: ss
      | [] => [[c]]

/-- Model of JS `join(sep)` over a list of strings. -/
def joinWith (sep : Char) : List (List Char) → List Char
  | [] => []
  | [s] => s
  | s :: rest => s ++ sep :: joinWith sep rest

/-- Model of finding the first `sep` (JS `indexOf`) and slicing around it:
`none` when the character does not occur. -/
def splitAtFirst (sep : Char) : List Char → Option (List Char × List Char)
  | [] => none
  | c :: rest =>
    if c = sep then some ([], rest)
    else (splitAtFirst sep rest).map (fun kv => (c :: kv.1, kv.2))

/-! ## The JavaScript value model for the codec -/

/-- Values handled by the codec: strings, numbers (integers, plus the `NaN`
that `parseInt` can produce for the `v` field), booleans, arrays and plain
objects (modelled as insertion-ordered association lists, as JS objects
with string keys are). -/
inductive JVal where
  | str (s : List Char)
  | num (n : Int)
  | nan
  | bool (b : Bool)
  | arr (xs : List JVal)
  | obj (fields : List (List Char × JVal))
  deriving Repr

/-! ## Base64url of UTF-8 (the composite `btoa ∘ unescape ∘ encodeURIComponent`) -/

/-- UTF-8 encoding of one Unicode scalar value, as `encodeURIComponent`
produces (byte values as `Nat`). -/
def utf8EncodeChar (c : Char) : List Nat :=
  let n := c.toNat
  if n < 0x80 then [n]
  else if n < 0x800 then [0xC0 + n / 64, 0x80 + n % 64]
  else if n < 0x10000 then [0xE0 + n / 4096, 0x80 + n / 64 % 64, 0x80 + n % 64]
  else [0xF0 + n / 0x40000, 0x80 + n / 4096 % 64, 0x80 + n / 64 % 64, 0x80 + n % 64]

/-- UTF-8 encoding of a whole string. -/
def utf8Encode (s : List Char) : List Nat :=
  (s.map utf8EncodeChar).flatten

/-- Is `b` a UTF-8 continuation byte? -/
def contByte (b : Nat) : Bool := 0x80 ≤ b && b < 0xC0

/-- First byte and tail of a byte list, when present. -/
def split1 : List Nat → Option (Nat × List Nat)
  | b :: rest => some (b, rest)
  | [] => none

/-- First two bytes and tail of a byte list, when present. -/
def split2 : List Nat → Option (Nat × Nat × List Nat)
  | a :: b :: rest => some (a, b, rest)
  | _ => none

/-- First three bytes and tail of a byte list, when present. -/
def split3 : List Nat → Option (Nat × Nat × Nat × List Nat)
  | a :: b :: c :: rest => some (a, b, c, rest)
  | _ => none

/-- Code point of a two-byte UTF-8 sequence. -/
def utf8Val2 (b0 b1 : Nat) : Nat := (b0 - 192) * 64 + (b1 - 128)

/-- Code point of a three-byte UTF-8 sequence. -/
def utf8Val3 (b0 b1 b2 : Nat) : Nat := (b0 - 224) * 4096 + (b1 - 128) * 64 + (b2 - 128)

/-- Code point of a four-byte UTF-8 sequence. -/
def utf8Val4 (b0 b1 b2 b3 : Nat) : Nat :=
  (b0 - 240) * 262144 + (b1 - 128) * 4096 + (b2 - 128) * 64 + (b3 - 128)

/-- Validity of a two-byte sequence: continuation byte, no overlong form. -/
def utf8Valid2 (b0 b1 : Nat) : Bool :=
  contByte b1 && decide (128 ≤ utf8Val2 b0 b1)

/-- Validity of a three-byte sequence: continuation bytes, no overlong form,
no surrogate code point. -/
def utf8Valid3 (b0 b1 b2 : Nat) : Bool :=
  contByte b1 && contByte b2 && decide (2048 ≤ utf8Val3 b0 b1 b2) &&
    (decide (utf8Val3 b0 b1 b2 < 55296) || decide (57344 ≤ utf8Val3 b0 b1 b2))

/-- Validity of a four-byte sequence: continuation bytes, code point in
`[U+10000, U+10FFFF]`. -/
def utf8Valid4 (b0 b1 b2 b3 : Nat) : Bool :=
  contByte b1 && contByte b2 && contByte b3 && decide (65536 ≤ utf8Val4 b0 b1 b2 b3) &&
    decide (utf8Val4 b0 b1 b2 b3 < 1114112)

/-- Strict UTF-8 decoding loop, as `decodeURIComponent` performs it: rejects
truncated sequences, stray continuation bytes, overlong encodings,
surrogate code points and values above `U+10FFFF` (all of which make
`decodeURIComponent` throw `URIError`).  The fuel argument only bounds
recursion depth — every iteration consumes at least one byte, so
`utf8Decode` below supplies more fuel than any run can use and the
`none`-for-fuel branch is unreachable. -/
def utf8DecodeAux : Nat → List Nat → Option (List Char)
  | _, [] => some []
  | 0, _ :: _ => none
  | fuel + 1, b0 :: rest =>
    if b0 < 128 then (utf8DecodeAux fuel rest).map (fun cs => Char.ofNat b0 :: cs)
    else if b0 < 192 then none
    else if b0 < 224 then
      (split1 rest).bind (fun p =>
        if utf8Valid2 b0 p.1 then
          (utf8DecodeAux fuel p.2).map (fun cs => Char.ofNat (utf8Val2 b0 p.1) :: cs)
        else none)
    else if b0 < 240 then
      (split2 rest).bind (fun p =>
        if utf8Valid3 b0 p.1 p.2.1 then
          (utf8DecodeAux fuel p.2.2).map (fun cs => Char.ofNat (utf8Val3 b0 p.1 p.2.1) :: cs)
        else none)
    else if b0 < 248 then
      (split3 rest).bind (fun p =>
        if utf8Valid4 b0 p.1 p.2.1 p.2.2.1 then
          (utf8DecodeAux fuel p.2.2.2).map
            (fun cs => Char.ofNat (utf8Val4 b0 p.1 p.2.1 p.2.2.1) :: cs)
        else none)
    else none

/-- Strict UTF-8 decoding of a byte list. -/
def utf8Decode (bs : List Nat) : Option (List Char) :=
  utf8DecodeAux (bs.length + 1) bs

/-- Base64url alphabet: positions 62 and 63 hold `-` and `_`, reflecting the
source's `+` → `-`, `/` → `_` replacements. -/
def b64Alphabet : List Char := jstr "ABCDEFGHIJKLMNOPQRSTUVWXYZabcdefghijklmnopqrstuvwxyz0123456789-_"

/-- Character for a 6-bit group. -/
def b64Char (i : Nat) : Char := b64Alphabet.getD i 'A'

/-- Value of a base64 character on decode.  The source first maps `-` → `+`
and `_` → `/` and then calls `atob`, so both the url alphabet and the
standard `+`/`/` are accepted. -/
def b64Idx (c : Char) : Option Nat :=
  if c = '+' then some 62
  else if c = '/' then some 63
  else b64Alphabet.findIdx? (fun x => x = c)

/-- Base64 encoding of a byte list, without `=` padding (the source strips
the padding with `replace(/=+$/, '')`). -/
def b64EncodeBytes : List Nat → List Char
  | [] => []
  | [a] => [b64Char (a / 4), b64Char (a % 4 * 16)]
  | [a, b] => [b64Char (a / 4), b64Char (a % 4 * 16 + b / 16), b64Char (b % 16 * 4)]
  | a :: b :: c :: rest =>
    b64Char (a / 4) :: b64Char (a % 4 * 16 + b / 16) ::
      b64Char (b % 16 * 4 + c / 64) :: b64Char (c % 64) :: b64EncodeBytes rest

/-- Chunkwise base64 decoding (the core of `atob` after cleanup); a final
chunk of one character is invalid. -/
def b64DecodeChunks : List Char → Option (List Nat)
  | [] => some []
  | [_] => none
  | [c1, c2] => do
    let i1 ← b64Idx c1
    let i2 ← b64Idx c2
    pure [i1 * 4 + i2 / 16]
  | [c1, c2, c3] => do
    let i1 ← b64Idx c1
    let i2 ← b64Idx c2
    let i3 ← b64Idx c3
    pure [i1 * 4 + i2 / 16, i2 % 16 * 16 + i3 / 4]
  | c1 :: c2 :: c3 :: c4 :: rest => do
    let i1 ← b64Idx c1
    let i2 ← b64Idx c2
    let i3 ← b64Idx c3
    let i4 ← b64Idx c4
    let tail ← b64DecodeChunks rest
    pure ((i1 * 4 + i2 / 16) :: (i2 % 16 * 16 + i3 / 4) :: (i3 % 4 * 64 + i4) :: tail)

/-- ASCII whitespace, which forgiving-base64 (`atob`) removes. -/
def isB64Ws (c : Char) : Bool :=
  c = ' ' || c = '\t' || c = '\n' || c = '\x0c' || c = '\r'

/-- Removal of up to two trailing `=` characters (forgiving-base64). -/
def dropTrailingEq (l : List Char) : List Char :=
  match l.reverse with
  | '=' :: '=' :: rest => rest.reverse
  | '=' :: rest => rest.reverse
  | _ => l

/-- Model of `atob` (forgiving-base64 decode) to bytes: strip ASCII
whitespace; if the length is then divisible by four, strip up to two
trailing `=`; fail when the length is `1 mod 4` or a character is outside
the alphabet. -/
def b64DecodeBytes (s : List Char) : Option (List Nat) :=
  let cleaned := s.filter (fun c => !isB64Ws c)
  let stripped := if cleaned.length % 4 = 0 then dropTrailingEq cleaned else cleaned
  if stripped.length % 4 = 1 then none else b64DecodeChunks stripped

/-- Model of the source's `b64Encode`: base64url of the UTF-8 bytes.  (The
`try { } catch` in the source only fires for lone surrogates, which the
`List Char` model cannot represent.) -/
def b64Encode (s : List Char) : List Char :=
  b64EncodeBytes (utf8Encode s)

/-- Model of the source's `b64Decode`: base64-decode then UTF-8-decode; any
thrown error is caught and turned into `''`. -/
def b64Decode (s : List Char) : List Char :=
  match b64DecodeBytes s with
  | none => []
  | some bytes =>
    match utf8Decode bytes with
    | none => []
    | some cs => cs

/-! ## Value encoding and decoding (`encodeValue` / `decodeValue`) -/

/-- Character class of the source's `SAFE_VALUE` regex `[a-zA-Z0-9_-]`. -/
def isSafeChar (c : Char) : Bool :=
  ('a' ≤ c && c ≤ 'z') || ('A' ≤ c && c ≤ 'Z') || ('0' ≤ c && c ≤ '9') || c = '_' || c = '-'

/-- Test of `SAFE_VALUE = /^[a-zA-Z0-9_-]+$/`. -/
def isSafeValue (s : List Char) : Bool :=
  !s.isEmpty && s.all isSafeChar

/-- Test of the integer regex `/^-?\d+$/`. -/
def isIntString (s : List Char) : Bool :=
  match s with
  | '-' :: ds => !ds.isEmpty && ds.all (fun c => c.isDigit)
  | ds => !ds.isEmpty && ds.all (fun c => c.isDigit)

/-- Numeric value of a digit run (the accumulator loop shared by the models
of `parseInt` and `parseFloat`). -/
def digitsVal (ds : List Char) : Nat :=
  ds.foldl (fun acc c => acc * 10 + (c.toNat - '0'.toNat)) 0

/-- Value of an integer string, as `parseInt(str, 10)` computes it on a
`^-?\d+$` match. -/
def intStringVal (s : List Char) : Int :=
  match s with
  | '-' :: ds => - (digitsVal ds : Nat)
  | ds => (digitsVal ds : Nat)

/-- Decimal digit character. -/
def digitChar : Nat → Char
  | 0 => '0' | 1 => '1' | 2 => '2' | 3 => '3' | 4 => '4'
  | 5 => '5' | 6 => '6' | 7 => '7' | 8 => '8' | 9 => '9'
  | _ => '*'

/-- Decimal digit string of a natural number.  The fuel argument only bounds
recursion depth (`n / 10` strictly decreases); `natDigits` supplies more
than any run can use. -/
def natDigitsAux : Nat → Nat → List Char
  | 0, _ => []
  | fuel + 1, n =>
    if n < 10 then [digitChar n]
    else natDigitsAux fuel (n / 10) ++ [digitChar (n % 10)]

/-- Decimal digit string of a natural number. -/
def natDigits (n : Nat) : List Char :=
  natDigitsAux (n + 1) n

/-- Model of `String(val)` for an integer (used by `encodeValue` on
numbers): decimal digits with a `-` sign for negatives.  This is the
program's behavior on the JS safe-integer range `|n| < 2^53` (to which
`GoodVal` restricts the round-trip claims); beyond `1e21` JS would switch
to exponent notation, which this model does not cover. -/
def intToString (n : Int) : List Char :=
  if n < 0 then '-' :: natDigits n.natAbs else natDigits n.natAbs

mutual

/-- Model of the source's `encodeValue`.  `null`/`undefined` do not occur in
the value model; the empty-string branch, arrays, numbers, booleans, the
safe-token branch and the `~`-escape branch follow the source order.  A
plain object reaching `encodeValue` (only possible as an array element)
goes through `String(val) = "[object Object]"`, which is unsafe and hence
escaped; `NaN` stringifies to `"NaN"`, a safe token. -/
def encodeValue : JVal → List Char
  | .str s =>
    if s = [] then []
    else if isSafeValue s then s
    else '~' :: b64Encode s
  | .num n => intToString n
  | .nan => jstr "NaN"
  | .bool b => if b then jstr "1" else jstr "0"
  | .arr xs => joinWith ',' (encodeValueList xs)
  | .obj _ => '~' :: b64Encode (jstr "[object Object]")

/-- Elementwise `encodeValue` over an array (the source's `val.map(v => encodeValue(v))`). -/
def encodeValueList : List JVal → List (List Char)
  | [] => []
  | x :: xs => encodeValue x :: encodeValueList xs

end

/-- Scalar part of `decodeValue`: the branches other than the comma split,
in source order (empty string, `~` prefix, integer regex, literal). -/
def decodeScalar (s : List Char) : JVal :=
  if s = [] then .str []
  else
    match s with
    | '~' :: rest => .str (b64Decode rest)
    | _ =>
      if isIntString s then .num (intStringVal s)
      else .str s

/-- Model of the source's `decodeValue`: empty first, then the `~` prefix,
then the comma split, then the integer regex, else the literal string.
The source's recursive call lands on comma-free parts, where `decodeValue`
and `decodeScalar` agree (`decodeValue_eq_decodeScalar` below). -/
def decodeValue (s : List Char) : JVal :=
  if s = [] then .str []
  else
    match s with
    | '~' :: rest => .str (b64Decode rest)
    | _ =>
      if s.any (fun c => c == ',') then .arr ((splitOnChar ',' s).map decodeScalar)
      else if isIntString s then .num (intStringVal s)
      else .str s

/-! ## Flatten / unflatten -/

mutual

/-- Flattening of one field of the source's `flatten`: recursion enters
plain objects only (arrays and scalars are leaves), keys joined with `.`. -/
def flattenVal (pre k : List Char) : JVal → List (List Char × JVal)
  | .obj gs => flattenFields (if pre = [] then k else pre ++ '.' :: k) gs
  | v => [((if pre = [] then k else pre ++ '.' :: k), v)]

/-- Model of the source's `flatten`: depth-first walk of an object. -/
def flattenFields (pre : List Char) : List (List Char × JVal) → List (List Char × JVal)
  | [] => []
  | (k, v) :: rest => flattenVal pre k v ++ flattenFields pre rest

end

/-- Property names a plain `{}` inherits from `Object.prototype`, visible to
the `in` operator and to property reads on every object the codec and the
rule engine build. -/
def protoNames : List (List Char) :=
  [jstr "constructor", jstr "hasOwnProperty", jstr "isPrototypeOf",
   jstr "propertyIsEnumerable", jstr "toLocaleString", jstr "toString",
   jstr "valueOf", jstr "__defineGetter__", jstr "__defineSetter__",
   jstr "__lookupGetter__", jstr "__lookupSetter__", jstr "__proto__"]

/-- Own-property write: update in place when an own key exists (keeping its
position), append otherwise.  This is the effect `current[key] = value` has
for every key except the inherited `__proto__` accessor; see `jsAssign`. -/
def setKey : List (List Char × JVal) → List Char → JVal → List (List Char × JVal)
  | [], k, v => [(k, v)]
  | (k', v') :: rest, k, v =>
    if k' = k then (k, v) :: rest else (k', v') :: setKey rest k v

/-- JS property assignment `current[key] = value` on a plain object: for the
key `__proto__` the inherited `Object.prototype` accessor consumes the
write and no own property is created (a prototype swap by an object-valued
write is a mutation of hidden state outside the returned object and is not
tracked); every other key performs the own write `setKey`, because the
remaining inherited members are writable data properties that shadowing
assignments simply override. -/
def jsAssign (fields : List (List Char × JVal)) (k : List Char) (v : JVal) :
    List (List Char × JVal) :=
  if k = jstr "__proto__" then fields else setKey fields k v

/-- Lookup among the own entries of the association-list model of a JS
object (also reused for rule-engine contexts and configuration tables).
Call sites where the source performs a full property read that can also hit
the inherited `Object.prototype` members add the prototype fallback
explicitly: `setPath` for unflatten's `part in current`, and `ctxGet` for
the evaluator's `ctx[name]`. -/
def lookupKey {α : Type} : List (List Char × α) → List Char → Option α
  | [], _ => none
  | (k', v') :: rest, k => if k' = k then some v' else lookupKey rest k

/-- Insertion of one (path, value) pair, following the source's `unflatten`
loop.  The `part in current` test sees own keys and the inherited
`Object.prototype` members: a part with an own object value is descended
into; an own non-object value models the strict-mode `TypeError` of the
subsequent property write on a primitive as `Except.error`; a part with no
own entry but an inherited one (`protoNames`) descends into the shared
inherited member, so the rest of the pair lands outside the returned object
and is modeled as lost (mutations of the shared natives are invisible in
the result and are not tracked); otherwise a fresh `{}` is created. -/
def setPath : List (List Char × JVal) → List (List Char) → JVal → Except Unit (List (List Char × JVal))
  | fields, [], _ => .ok fields
  | fields, [last], v => .ok (jsAssign fields last v)
  | fields, part :: next :: rest, v =>
    match lookupKey fields part with
    | none =>
      if part ∈ protoNames then .ok fields
      else (setPath [] (next :: rest) v).map (fun sub => setKey fields part (.obj sub))
    | some (.obj gs) => (setPath gs (next :: rest) v).map (fun sub => setKey fields part (.obj sub))
    | some _ => .error ()

/-- Model of the source's `unflatten`. -/
def unflatten (pairs : List (List Char × JVal)) : Except Unit (List (List Char × JVal)) :=
  pairs.foldlM (fun acc kv => setPath acc (splitOnChar '.' kv.1) kv.2) []

/-! ## encode / decode -/

/-- Model of JS `parseInt(value, 10)` as the decoder applies it to the `v`
field: skip leading whitespace, optional sign, then a digit run; no digits
yields `NaN`. -/
def jsParseInt (s : List Char) : JVal :=
  let t := s.dropWhile (fun c => isB64Ws c)
  let signAndDigits : Int × List Char :=
    match t with
    | '-' :: rest => (-1, rest)
    | '+' :: rest => (1, rest)
    | rest => (1, rest)
  let ds := signAndDigits.2.takeWhile (fun c => c.isDigit)
  if ds.isEmpty then .nan
  else .num (signAndDigits.1 * (digitsVal ds : Nat))

/-- Model of the source's `encode`: prepend the `v` and `o` pairs, flatten
the data skipping `_v`/`_o` keys, and join `key:encodedValue` segments with
`;`.  `VERSION` is the constant `1`. -/
def encode (data : List (List Char × JVal)) (origin : List Char) : List Char :=
  let pairs :=
    [(jstr "v", JVal.num 1), (jstr "o", JVal.str origin)] ++
      (flattenFields [] data).filter (fun kv => !(kv.1 = jstr "_v" || kv.1 = jstr "_o"))
  joinWith ';' (pairs.map (fun kv => kv.1 ++ ':' :: encodeValue kv.2))

/-- Per-segment decoding loop of the source's `decode`: empty segments and
segments without `:` are skipped; `v` becomes `_v` via `parseInt`, `o`
becomes `_o` verbatim, anything else goes through `decodeValue`. -/
def decodeSegs : List (List Char) → List (List Char × JVal)
  | [] => []
  | seg :: rest =>
    if seg = [] then decodeSegs rest
    else
      match splitAtFirst ':' seg with
      | none => decodeSegs rest
      | some (k, v) =>
        (if k = jstr "v" then (jstr "_v", jsParseInt v)
         else if k = jstr "o" then (jstr "_o", JVal.str v)
         else (k, decodeValue v)) :: decodeSegs rest

/-- Model of the source's `decode`: `null` for a falsy input (the empty
string), otherwise split on `;`, decode the segments and unflatten; any
exception (the strict-mode `TypeError` from `unflatten`) is caught and
turned into `null`. -/
def decode (s : List Char) : Option (List (List Char × JVal)) :=
  if s = [] then none
  else
    match unflatten (decodeSegs (splitOnChar ';' s)) with
    | .ok fields => some fields
    | .error _ => none

/-! ## Rule engine (`src/unnamed/part_010`): tokenizer -/

/-- Comparator token values `>=`, `<=`, `==`, `!=`, `>`, `<`. -/
inductive Cmp where
  | ge | le | eq | ne | gt | lt
  deriving Repr, DecidableEq

/-- Tokens of the rule expression language. -/
inductive Token where
  | number (v : Rat)
  | identifier (name : List Char)
  | boolean (b : Bool)
  | comparator (op : Cmp)
  | andTok
  | orTok
  | notTok
  | lparen
  | rparen
  | eof
  deriving Repr, DecidableEq

/-- Token type names as the source's `TOKEN` table spells them (used in
parser error messages). -/
def tokenTypeName : Token → String
  | .number _ => "NUMBER"
  | .identifier _ => "IDENTIFIER"
  | .boolean _ => "BOOLEAN"
  | .comparator _ => "COMPARATOR"
  | .andTok => "AND"
  | .orTok => "OR"
  | .notTok => "NOT"
  | .lparen => "LPAREN"
  | .rparen => "RPAREN"
  | .eof => "EOF"

/-- Whitespace per the JS `\s` class (ASCII part; the claims' expressions
only contain spaces). -/
def isJsWs (c : Char) : Bool :=
  c = ' ' || c = '\t' || c = '\n' || c = '\r' || c = '\x0b' || c = '\x0c'

/-- Start characters of identifiers, JS `[a-zA-Z_]`. -/
def isIdentStart (c : Char) : Bool :=
  ('a' ≤ c && c ≤ 'z') || ('A' ≤ c && c ≤ 'Z') || c = '_'

/-- Continuation characters of identifiers, JS `[a-zA-Z0-9_]`. -/
def isIdentChar (c : Char) : Bool :=
  isIdentStart c || ('0' ≤ c && c ≤ '9')

/-- Digit and dot, the JS `[\d.]` class the number scanner consumes. -/
def isNumChar (c : Char) : Bool :=
  c.isDigit || c = '.'

/-- Model of `parseFloat` on a number lexeme that starts with a digit:
integer part, optional fraction after the first `.`, any remainder (for
example a second `.`) ignored. -/
def parseFloatLexeme (ds : List Char) : Rat :=
  let intPart := ds.takeWhile (fun c => c.isDigit)
  let rest := ds.dropWhile (fun c => c.isDigit)
  match rest with
  | '.' :: tail =>
    let frac := tail.takeWhile (fun c => c.isDigit)
    (digitsVal intPart : Rat) + (digitsVal frac : Rat) / ((10 : Rat) ^ frac.length)
  | _ => (digitsVal intPart : Rat)

/-- Scanner loop of the source's `tokenize`, with the current position `i`
carried for error messages.  Branch order follows the source: whitespace,
two-character operators, one-character operators, numbers, keywords and
identifiers, otherwise a thrown error naming the character and position. -/
def tokenizeAux : Nat → List Char → Nat → Except String (List Token)
  | _, [], _ => .ok [.eof]
  | 0, _ :: _, _ => .error "out of fuel"
  | fuel + 1, c :: rest, i =>
    if isJsWs c then tokenizeAux fuel rest (i + 1)
    else
      match c, rest with
      | '>', '=' :: rs => (tokenizeAux fuel rs (i + 2)).map (fun ts => .comparator .ge :: ts)
      | '<', '=' :: rs => (tokenizeAux fuel rs (i + 2)).map (fun ts => .comparator .le :: ts)
      | '=', '=' :: rs => (tokenizeAux fuel rs (i + 2)).map (fun ts => .comparator .eq :: ts)
      | '!', '=' :: rs => (tokenizeAux fuel rs (i + 2)).map (fun ts => .comparator .ne :: ts)
      | '&', '&' :: rs => (tokenizeAux fuel rs (i + 2)).map (fun ts => .andTok :: ts)
      | '|', '|' :: rs => (tokenizeAux fuel rs (i + 2)).map (fun ts => .orTok :: ts)
      | '>', rs => (tokenizeAux fuel rs (i + 1)).map (fun ts => .comparator .gt :: ts)
      | '<', rs => (tokenizeAux fuel rs (i + 1)).map (fun ts => .comparator .lt :: ts)
      | '(', rs => (tokenizeAux fuel rs (i + 1)).map (fun ts => .lparen :: ts)
      | ')', rs => (tokenizeAux fuel rs (i + 1)).map (fun ts => .rparen :: ts)
      | '!', rs => (tokenizeAux fuel rs (i + 1)).map (fun ts => .notTok :: ts)
      | c, rs =>
        if c.isDigit then
          let lexeme := c :: rs.takeWhile isNumChar
          (tokenizeAux fuel (rs.dropWhile isNumChar) (i + lexeme.length)).map
            (fun ts => .number (parseFloatLexeme lexeme) :: ts)
        else if isIdentStart c then
          let id := c :: rs.takeWhile isIdentChar
          let next := rs.dropWhile isIdentChar
          let j := i + id.length
          let upper := id.map Char.toUpper
          (tokenizeAux fuel next j).map (fun ts =>
            (if upper = jstr "AND" then Token.andTok
             else if upper = jstr "OR" then Token.orTok
             else if upper = jstr "NOT" then Token.notTok
             else if id = jstr "true" then Token.boolean true
             else if id = jstr "false" then Token.boolean false
             else Token.identifier id) :: ts)
        else
          .error ("Unexpected character: " ++ String.mk [c] ++ " at position " ++ toString i)

/-- Model of the source's `tokenize`.  The scanner loop consumes at least
one character per iteration, so `expr.length + 1` units of fuel are more
than any run can use and the `out of fuel` branch is unreachable. -/
def tokenize (expr : List Char) : Except String (List Token) :=
  tokenizeAux (expr.length + 1) expr 0

/-! ## Rule engine: parser and evaluator -/

/-- Right-hand side of a comparison: numeric literal or identifier. -/
inductive CmpRhs where
  | rnum (q : Rat)
  | rvar (name : List Char)
  deriving Repr

/-- AST of the rule language, as the source's parser builds it. -/
inductive Ast where
  | literal (b : Bool)
  | var (name : List Char)
  | compare (left : List Char) (op : Cmp) (right : CmpRhs)
  | and (l r : Ast)
  | or (l r : Ast)
  | not (e : Ast)
  deriving Repr

mutual

/-- Model of the source's `parseExpr` (`expr := term ((AND | OR) term)*`).
The `fuel` argument only bounds recursion depth: the JS recursion
terminates because every recursive step first consumes a token, and `parse`
below supplies more fuel than any terminating run can use. -/
def parseExpr : Nat → List Token → Except String (Ast × List Token)
  | 0, _ => .error "out of fuel"
  | fuel + 1, ts => do
    let (left, ts1) ← parseTerm fuel ts
    parseExprLoop fuel left ts1

/-- The `while (AND | OR)` fold inside `parseExpr`: strictly left-to-right,
no precedence distinction. -/
def parseExprLoop : Nat → Ast → List Token → Except String (Ast × List Token)
  | 0, _, _ => .error "out of fuel"
  | fuel + 1, left, .andTok :: rest => do
    let (right, ts2) ← parseTerm fuel rest
    parseExprLoop fuel (.and left right) ts2
  | fuel + 1, left, .orTok :: rest => do
    let (right, ts2) ← parseTerm fuel rest
    parseExprLoop fuel (.or left right) ts2
  | _ + 1, left, ts => .ok (left, ts)

/-- Model of the source's `parseTerm` (`term := NOT? factor`). -/
def parseTerm : Nat → List Token → Except String (Ast × List Token)
  | 0, _ => .error "out of fuel"
  | fuel + 1, .notTok :: rest => (parseFactor fuel rest).map (fun p => (.not p.1, p.2))
  | fuel + 1, ts => parseFactor fuel ts

/-- Model of the source's `parseFactor`: parenthesised expression, boolean
literal, identifier optionally followed by a comparison, otherwise a thrown
error.  Error messages follow the source's `consume`/`throw` strings. -/
def parseFactor : Nat → List Token → Except String (Ast × List Token)
  | 0, _ => .error "out of fuel"
  | fuel + 1, ts =>
    match ts with
    | .lparen :: rest => do
      let (e, ts1) ← parseExpr fuel rest
      match ts1 with
      | .rparen :: ts2 => .ok (e, ts2)
      | t :: _ => .error ("Expected RPAREN, got " ++ tokenTypeName t)
      | [] => .error "Expected RPAREN, got EOF"
    | .boolean b :: rest => .ok (.literal b, rest)
    | .identifier id :: .comparator op :: .number q :: rest => .ok (.compare id op (.rnum q), rest)
    | .identifier id :: .comparator op :: .identifier r :: rest => .ok (.compare id op (.rvar r), rest)
    | .identifier _ :: .comparator _ :: _ => .error "Expected number or identifier after comparator"
    | .identifier id :: rest => .ok (.var id, rest)
    | t :: _ => .error ("Unexpected token: " ++ tokenTypeName t)
    | [] => .error "Unexpected token: none"

end

/-- Model of the source's `parse`: parse one expression and ignore whatever
tokens remain (the source never checks that `EOF` was reached). -/
def parse (tokens : List Token) : Except String Ast :=
  (parseExpr (10 * tokens.length + 10) tokens).map Prod.fst

/-- Runtime values of rule evaluation: the context maps names to numbers or
booleans, and every AST node evaluates to one of these. -/
inductive RVal where
  | num (q : Rat)
  | bool (b : Bool)
  | native (name : List Char)
  deriving Repr, DecidableEq

/-- JS truthiness of a runtime value; the inherited `Object.prototype`
members (functions, or `Object.prototype` itself for `__proto__`) are
objects and hence truthy. -/
def truthy : RVal → Bool
  | .num q => if q = 0 then false else true
  | .bool b => b
  | .native _ => true

/-- JS numeric coercion as the relational comparators apply it; `none`
models `NaN` (an inherited member coerces through its string form, which is
never numeric). -/
def asNumOpt : RVal → Option Rat
  | .num q => some q
  | .bool b => some (if b then 1 else 0)
  | .native _ => none

/-- JS strict equality `===` on runtime values (no cross-type coercion);
two inherited members are the same object exactly when they are the same
property of `Object.prototype`. -/
def strictEq : RVal → RVal → Bool
  | .num a, .num b => a = b
  | .bool a, .bool b => a = b
  | .native a, .native b => a = b
  | _, _ => false

/-- Lexicographic (UTF-16 code unit) string comparison, as JS `<` compares
two strings. -/
def lexLt : List Char → List Char → Bool
  | [], [] => false
  | [], _ :: _ => true
  | _ :: _, [] => false
  | a :: as, b :: bs => if a = b then lexLt as bs else decide (a < b)

/-- The primitive an inherited `Object.prototype` member converts to when a
relational comparator applies `ToPrimitive`: the member functions report
the Node/V8 source text `function name() { [native code] }`, and the
`__proto__` read yields `Object.prototype` itself, whose string form is
`[object Object]`. -/
def nativeStr (name : List Char) : List Char :=
  if name = jstr "__proto__" then jstr "[object Object]"
  else jstr "function " ++ name ++ jstr "() { [native code] }"

/-- Semantics of one comparator application, following the source's
`switch (ast.op)`: `==`/`!=` are the strict `===`/`!==`; the relational
operators compare numbers after coercion, compare the string forms
lexicographically when both sides are inherited members, and are false when
exactly one side coerces to `NaN`. -/
def cmpEval (op : Cmp) (l r : RVal) : Bool :=
  match op with
  | .eq => strictEq l r
  | .ne => !strictEq l r
  | _ =>
    match l, r with
    | .native a, .native b =>
      (match op with
       | .ge => !lexLt (nativeStr a) (nativeStr b)
       | .le => !lexLt (nativeStr b) (nativeStr a)
       | .gt => lexLt (nativeStr b) (nativeStr a)
       | _ => lexLt (nativeStr a) (nativeStr b))
    | l, r =>
      match asNumOpt l, asNumOpt r with
      | some a, some b =>
        (match op with
         | .ge => a ≥ b
         | .le => a ≤ b
         | .gt => a > b
         | _ => a < b)
      | _, _ => false

/-- JS property read `ctx[name]` on a rule context: an own entry if
present, else the inherited `Object.prototype` member for the names every
plain object inherits, else `undefined` (`none`, on which the source's `??`
defaults then apply). -/
def ctxGet (ctx : List (List Char × RVal)) (n : List Char) : Option RVal :=
  match lookupKey ctx n with
  | some v => some v
  | none => if n ∈ protoNames then some (.native n) else none

/-- Model of the source's `evaluate`: identifiers are read with the
prototype-aware `ctxGet`, so only a name that is neither an own context
entry nor an inherited `Object.prototype` member defaults to `false` as a
standalone factor (`ctx[ast.name] ?? false`) and to `0` on either side of a
comparison (`?? 0`); `&&`/`||` return one of their operands as JS does. -/
def evaluate : Ast → List (List Char × RVal) → RVal
  | .literal b, _ => .bool b
  | .var n, ctx => (ctxGet ctx n).getD (.bool false)
  | .compare l op r, ctx =>
    let lv := (ctxGet ctx l).getD (.num 0)
    let rv :=
      match r with
      | .rvar n => (ctxGet ctx n).getD (.num 0)
      | .rnum q => RVal.num q
    .bool (cmpEval op lv rv)
  | .and l r, ctx =>
    let lv := evaluate l ctx
    if truthy lv then evaluate r ctx else lv
  | .or l r, ctx =>
    let lv := evaluate l ctx
    if truthy lv then lv else evaluate r ctx
  | .not e, ctx => .bool (!truthy (evaluate e ctx))

/-- Model of the source's `compile`: tokenize, parse, and close over the
AST. -/
def compile (expr : List Char) : Except String (List (List Char × RVal) → RVal) := do
  let tokens ← tokenize expr
  let ast ← parse tokens
  .ok (fun ctx => evaluate ast ctx)

/-! ## Assessment glue (`src/config.js`) -/

/-- The part of a configured field that assessment reads (`field.score`). -/
structure FieldSpec where
  score : Option (List (List Char × Rat))

/-- Computed-context specifications (`config.scoring.computed`). -/
inductive Computed where
  | max (fields : List (List Char))
  | lookup (field : List Char)
  | includesAny (field : List Char) (values : List JVal)

/-- One precompiled rule as `loadConfig` builds it (outcome plus evaluator). -/
structure CompiledRule where
  level : List Char
  color : List Char
  label : List Char
  evaluator : List (List Char × RVal) → RVal

/-- The part of a loaded configuration that `assess` reads. -/
structure Config where
  fields : List (List Char × FieldSpec)
  computed : List (List Char × Computed)
  compiledRules : List CompiledRule

/-- Assessment outcome (`{ level, color, label }`). -/
structure Outcome where
  level : List Char
  color : List Char
  label : List Char
  deriving Repr, DecidableEq

/-- Model of `getNestedValue`: `path.split('.').reduce((o, k) => o?.[k], obj)`.
Property access on a non-object yields `undefined` (numeric indexing into
arrays is not modelled; no claim exercises it). -/
def getNested : Option JVal → List (List Char) → Option JVal
  | o, [] => o
  | some (.obj fs), k :: rest => getNested (lookupKey fs k) rest
  | _, _ :: _ => none

/-- Model of the source's `getNestedValue`. -/
def getNestedValue (obj : List (List Char × JVal)) (path : List Char) : Option JVal :=
  getNested (some (.obj obj)) (splitOnChar '.' path)

/-- JS falsiness of a codec value (`!value`). -/
def jsFalsy : JVal → Bool
  | .str s => s = []
  | .num n => n = 0
  | .nan => true
  | .bool b => !b
  | .arr _ => false
  | .obj _ => false

mutual

/-- JS property-key coercion `String(value)` for values used as score-table
keys (only strings occur in practice). -/
def jvalPropKey : JVal → List Char
  | .str s => s
  | .num n => intToString n
  | .nan => jstr "NaN"
  | .bool b => if b then jstr "true" else jstr "false"
  | .arr xs => joinWith ',' (jvalPropKeyList xs)
  | .obj _ => jstr "[object Object]"

/-- Elementwise property-key coercion for array stringification. -/
def jvalPropKeyList : List JVal → List (List Char)
  | [] => []
  | x :: xs => jvalPropKey x :: jvalPropKeyList xs

end

/-- Model of the source's `getScore`: `0` unless the field exists, has a
score table and the value is truthy; then `field.score[value] ?? 0`. -/
def getScore (data : List (List Char × JVal)) (fieldKey : List Char) (cfg : Config) : Rat :=
  let value := getNestedValue data fieldKey
  match lookupKey cfg.fields fieldKey with
  | none => 0
  | some field =>
    match field.score, value with
    | some scores, some v =>
      if jsFalsy v then 0 else (lookupKey scores (jvalPropKey v)).getD 0
    | _, _ => 0

/-- SameValueZero equality, as `Array.prototype.includes` applies it: equal
scalars match (including `NaN`); arrays and objects compare by reference,
so two distinct instances never match. -/
def jvalEq : JVal → JVal → Bool
  | .str a, .str b => a = b
  | .num a, .num b => a = b
  | .bool a, .bool b => a = b
  | .nan, .nan => true
  | _, _ => false

/-- Maximum of a score list (`Math.max(...)`).  An empty list would be
`-Infinity` in JS, which the rational model cannot express; no configured
rule uses an empty field list and no claim exercises that case. -/
def maxScores : List Rat → Rat
  | [] => 0
  | x :: xs => xs.foldl max x

/-- Model of the source's `computeContext`: one context entry per computed
specification, in configuration order. -/
def computeContext (data : List (List Char × JVal)) (cfg : Config) : List (List Char × RVal) :=
  cfg.computed.map (fun nc =>
    match nc.2 with
    | .max fields => (nc.1, RVal.num (maxScores (fields.map (fun f => getScore data f cfg))))
    | .lookup field => (nc.1, RVal.num (getScore data field cfg))
    | .includesAny field values =>
      let value := getNestedValue data field
      let arr :=
        match value with
        | some (.arr xs) => xs
        | some v => if jsFalsy v then [] else [v]
        | none => []
      (nc.1, RVal.bool (values.any (fun v => arr.any (fun x => jvalEq x v)))))

/-- First-match loop of the source's `assess`: outcome of the first rule
whose evaluator is truthy, else the default outcome. -/
def assessRules : List CompiledRule → List (List Char × RVal) → Outcome
  | [], _ => ⟨jstr "info", jstr "6b7280", jstr "Documented"⟩
  | r :: rest, ctx =>
    if truthy (r.evaluator ctx) then ⟨r.level, r.color, r.label⟩ else assessRules rest ctx

/-- Model of the source's `assess`: the default outcome for falsy data,
otherwise the first-match loop over the compiled rules against the computed
context. -/
def assess (data : Option (List (List Char × JVal))) (cfg : Config) : Outcome :=
  match data with
  | none => ⟨jstr "info", jstr "6b7280", jstr "Documented"⟩
  | some d => assessRules cfg.compiledRules (computeContext d cfg)

/-! ## Round-trip domain and canonicalization (specification side of C1)

The amended round-trip claim quantifies over "good" data objects and
states the decoded result as a canonicalization of the input: booleans and
numeric-looking strings collapse to numbers, singleton and empty arrays
collapse to their single encoded form.  These definitions state the
property; they are not part of the source model. -/

/-- Scalar codec values (strings, numbers, booleans). -/
def isScalar : JVal → Bool
  | .num _ => true
  | .bool _ => true
  | .str _ => true
  | _ => false

/-- Values whose encoding is `~`-escaped: nonempty strings outside the safe
set. -/
def isEscapedString : JVal → Bool
  | .str s => !s.isEmpty && !isSafeValue s
  | _ => false

/-- Characters allowed in round-tripping keys: anything except the `.`
nesting separator and the `:`/`;` delimiters. -/
def goodKeyChar (c : Char) : Bool :=
  !(c = '.' || c = ':' || c = ';')

/-- Round-tripping keys: nonempty, free of `.`/`:`/`;`, distinct from the
reserved `v`/`o`/`_v`/`_o` names, and not the name of an inherited
`Object.prototype` member (for those, unflatten's `in` test or the
`__proto__` accessor makes the write miss the returned object). -/
def goodKey (k : List Char) : Bool :=
  !k.isEmpty && k.all goodKeyChar &&
    !(k = jstr "v" || k = jstr "o" || k = jstr "_v" || k = jstr "_o") &&
    !(k ∈ protoNames)

/-- JS safe-integer bound: for `|n| < 2^53` the program's numbers are exact
doubles below the `1e21` exponent-notation threshold, so `String(n)` prints
the plain decimal digits that `intToString` models. -/
def safeIntNum : JVal → Bool
  | .num n => n.natAbs < 9007199254740992
  | _ => true

/-- Round-tripping arrays: scalars only; with two or more elements the first
must not be a `~`-escaped string (otherwise the decoder reads the whole
comma-joined encoding as one base64 payload). -/
def goodArr : List JVal → Bool
  | [] => true
  | [x] => isScalar x
  | x :: y :: rest => isScalar x && !isEscapedString x && (y :: rest).all isScalar

mutual

/-- Round-tripping values: safe-integer numbers, booleans, strings, good
arrays of safe scalars, and nonempty good objects. -/
def GoodVal : JVal → Bool
  | .num n => n.natAbs < 9007199254740992
  | .bool _ => true
  | .str _ => true
  | .nan => false
  | .arr xs => goodArr xs && xs.all safeIntNum
  | .obj fs => !fs.isEmpty && GoodObj fs

/-- Round-tripping objects: good distinct keys and good values. -/
def GoodObj : List (List Char × JVal) → Bool
  | [] => true
  | (k, v) :: rest =>
    goodKey k && rest.all (fun p => !(p.1 = k)) && GoodVal v && GoodObj rest

end

mutual

/-- Canonicalization a codec value undergoes in one encode/decode round
trip: booleans become `1`/`0`, numeric-looking strings become numbers,
empty arrays collapse to the empty string, singleton arrays collapse to
their element. -/
def canon : JVal → JVal
  | .num n => .num n
  | .bool b => .num (if b then 1 else 0)
  | .str s => if isIntString s then .num (intStringVal s) else .str s
  | .nan => .nan
  | .arr [] => .str []
  | .arr [x] => canon x
  | .arr (x :: y :: rest) => .arr (canonList (x :: y :: rest))
  | .obj fs => .obj (canonFields fs)

/-- Elementwise canonicalization of array elements. -/
def canonList : List JVal → List JVal
  | [] => []
  | x :: xs => canon x :: canonList xs

/-- Valuewise canonicalization of object fields. -/
def canonFields : List (List Char × JVal) → List (List Char × JVal)
  | [] => []
  | (k, v) :: rest => (k, canon v) :: canonFields rest

end

/-- Folding insertion underlying `unflatten`, starting from an arbitrary
accumulator (the proofs below induct on it; `unflatten` is the `[]` case). -/
def insertAll (acc : List (List Char × JVal)) (pairs : List (List Char × JVal)) :
    Except Unit (List (List Char × JVal)) :=
  pairs.foldlM (fun a kv => setPath a (splitOnChar '.' kv.1) kv.2) acc

/-- One rule as `loadConfig` precompiles it: the outcome descriptor plus the
evaluator `compile(rule.condition)`; compilation errors propagate. -/
def compileRule (cond level color label : List Char) : Except String CompiledRule :=
  (compile cond).map (fun f => { level := level, color := color, label := label, evaluator := f })

/-! ## Lemmas about the string helpers -/

theorem splitOnChar_ne_nil (sep : Char) (s : List Char) : splitOnChar sep s ≠ [] := by
  induction s with
  | nil => simp [splitOnChar]
  | cons c rest ih =>
    simp only [splitOnChar]
    split
    · simp
    · match h : splitOnChar sep rest with
      | [] => exact absurd h ih
      | t :: ts => simp [h]

theorem splitOnChar_no_sep {sep : Char} {s : List Char} (h : ∀ c ∈ s, ¬(c = sep)) :
    splitOnChar sep s = [s] := by
  induction s with
  | nil => rfl
  | cons c rest ih =>
    have hc : ¬(c = sep) := h c (by simp)
    have hrest := ih (fun c hc => h c (by simp [hc]))
    simp [splitOnChar, hc, hrest]

theorem splitOnChar_append_sep {sep : Char} {s t : List Char} (h : ∀ c ∈ s, ¬(c = sep)) :
    splitOnChar sep (s ++ sep :: t) = s :: splitOnChar sep t := by
  induction s with
  | nil => simp [splitOnChar]
  | cons c rest ih =>
    have hc : ¬(c = sep) := h c (by simp)
    have hrest := ih (fun c hc => h c (by simp [hc]))
    simp only [List.cons_append, splitOnChar, if_neg hc, List.append_eq]
    rw [hrest]

theorem splitOnChar_joinWith {sep : Char} {segs : List (List Char)} (hne : segs ≠ [])
    (h : ∀ s ∈ segs, ∀ c ∈ s, ¬(c = sep)) :
    splitOnChar sep (joinWith sep segs) = segs := by
  induction segs with
  | nil => exact absurd rfl hne
  | cons s rest ih =>
    match rest with
    | [] => exact splitOnChar_no_sep (h s (by simp))
    | t :: ts =>
      have hs := h s (by simp)
      have hrest := ih (by simp) (fun u hu c hc => h u (by simp [hu]) c hc)
      calc splitOnChar sep (joinWith sep (s :: t :: ts))
          = splitOnChar sep (s ++ sep :: joinWith sep (t :: ts)) := rfl
        _ = s :: splitOnChar sep (joinWith sep (t :: ts)) := splitOnChar_append_sep hs
        _ = s :: t :: ts := by rw [hrest]

theorem mem_of_mem_splitOnChar {sep : Char} {s seg : List Char} {c : Char}
    (hseg : seg ∈ splitOnChar sep s) (hc : c ∈ seg) : c ∈ s := by
  induction s generalizing seg with
  | nil =>
    simp [splitOnChar] at hseg
    subst hseg
    cases hc
  | cons a rest ih =>
    simp only [splitOnChar] at hseg
    by_cases ha : a = sep
    · rw [if_pos ha] at hseg
      rcases List.mem_cons.mp hseg with h | h
      · subst h; cases hc
      · exact List.mem_cons_of_mem _ (ih h hc)
    · rw [if_neg ha] at hseg
      match hsplit : splitOnChar sep rest with
      | [] => exact absurd hsplit (splitOnChar_ne_nil sep rest)
      | t :: ts =>
        rw [hsplit] at hseg
        rcases List.mem_cons.mp hseg with h | h
        · subst h
          rcases List.mem_cons.mp hc with h | h
          · simp [h]
          · exact List.mem_cons_of_mem _ (ih (by simp [hsplit]) h)
        · exact List.mem_cons_of_mem _ (ih (by simp [hsplit, h]) hc)

theorem splitAtFirst_of_no_sep {sep : Char} {s : List Char} (h : ∀ c ∈ s, ¬(c = sep)) :
    splitAtFirst sep s = none := by
  induction s with
  | nil => rfl
  | cons c rest ih =>
    have hc : ¬(c = sep) := h c (by simp)
    have hrest := ih (fun c hc => h c (by simp [hc]))
    simp [splitAtFirst, hc, hrest]

theorem splitAtFirst_append {sep : Char} {k v : List Char} (h : ∀ c ∈ k, ¬(c = sep)) :
    splitAtFirst sep (k ++ sep :: v) = some (k, v) := by
  induction k with
  | nil => simp [splitAtFirst]
  | cons c rest ih =>
    have hc : ¬(c = sep) := h c (by simp)
    have hrest := ih (fun c hc => h c (by simp [hc]))
    simp [splitAtFirst, hc, hrest]

theorem mem_joinWith {sep : Char} {segs : List (List Char)} {c : Char}
    (hc : c ∈ joinWith sep segs) : (∃ s ∈ segs, c ∈ s) ∨ c = sep := by
  induction segs with
  | nil => simp [joinWith] at hc
  | cons s rest ih =>
    match rest with
    | [] => exact Or.inl ⟨s, by simp, hc⟩
    | t :: ts =>
      rw [show joinWith sep (s :: t :: ts) = s ++ sep :: joinWith sep (t :: ts) from rfl] at hc
      rcases List.mem_append.mp hc with h | h
      · exact Or.inl ⟨s, by simp, h⟩
      · rcases List.mem_cons.mp h with rfl | h
        · exact Or.inr rfl
        · rcases ih h with ⟨u, hu, hcu⟩ | h
          · exact Or.inl ⟨u, List.mem_cons_of_mem _ hu, hcu⟩
          · exact Or.inr h

theorem mem_splitOnChar_cover {sep : Char} {s : List Char} {c : Char} (hc : c ∈ s) :
    (∃ seg ∈ splitOnChar sep s, c ∈ seg) ∨ c = sep := by
  induction s with
  | nil => cases hc
  | cons a rest ih =>
    simp only [splitOnChar]
    by_cases ha : a = sep
    · rw [if_pos ha]
      rcases List.mem_cons.mp hc with rfl | hc'
      · exact Or.inr ha
      · rcases ih hc' with ⟨seg, hs, hcs⟩ | h
        · exact Or.inl ⟨seg, List.mem_cons_of_mem _ hs, hcs⟩
        · exact Or.inr h
    · rw [if_neg ha]
      match hsplit : splitOnChar sep rest with
      | [] => exact absurd hsplit (splitOnChar_ne_nil sep rest)
      | t :: ts =>
        rcases List.mem_cons.mp hc with rfl | hc'
        · exact Or.inl ⟨c :: t, by simp, by simp⟩
        · rcases ih hc' with ⟨seg, hs, hcs⟩ | h
          · rw [hsplit] at hs
            rcases List.mem_cons.mp hs with rfl | hs'
            · exact Or.inl ⟨a :: seg, by simp, List.mem_cons_of_mem _ hcs⟩
            · exact Or.inl ⟨seg, by simp [hs'], hcs⟩
          · exact Or.inr h

theorem joinWith_cons_ne_nil (sep : Char) (s : List Char) (rest : List (List Char))
    (h : ¬(s = [])) : ¬(joinWith sep (s :: rest) = []) := by
  match rest with
  | [] => simpa [joinWith] using h
  | t :: ts => simp [joinWith]

/-! ## Character-range facts -/

theorem char_toNat_lt (c : Char) : c.toNat < 1114112 := by
  have h := c.valid
  have he : c.toNat = c.val.toNat := rfl
  rcases h with h | h
  · have : c.val.toNat < 55296 := h
    omega
  · have : c.val.toNat < 1114112 := h.2
    omega

theorem char_not_surrogate (c : Char) : c.toNat < 55296 ∨ 57344 ≤ c.toNat := by
  have he : c.toNat = c.val.toNat := rfl
  rcases c.valid with h | h
  · left; have : c.val.toNat < 55296 := h; omega
  · right; have : 57343 < c.val.toNat := h.1; omega

/-! ## Base64 lemmas -/

theorem b64Char_mem (i : Nat) : b64Char i ∈ b64Alphabet := by
  by_cases h : i < b64Alphabet.length
  · unfold b64Char
    rw [List.getD_eq_getElem?_getD, List.getElem?_eq_getElem h]
    exact List.getElem_mem h
  · unfold b64Char
    rw [List.getD_eq_getElem?_getD, List.getElem?_eq_none (by omega)]
    decide

theorem b64Alphabet_props : ∀ c ∈ b64Alphabet, isSafeChar c ∧ ¬(isB64Ws c = true) ∧ ¬(c = '=') := by
  decide

theorem b64Idx_b64Char : ∀ i : Nat, i < 64 → b64Idx (b64Char i) = some i := by decide

theorem b64EncodeBytes_mem_alphabet : ∀ (bs : List Nat), ∀ c ∈ b64EncodeBytes bs, c ∈ b64Alphabet
  | [] => by intro c hc; simp [b64EncodeBytes] at hc
  | [a] => by
    intro c hc
    simp only [b64EncodeBytes, List.mem_cons, List.not_mem_nil, or_false] at hc
    rcases hc with h | h <;> (subst h; exact b64Char_mem _)
  | [a, b] => by
    intro c hc
    simp only [b64EncodeBytes, List.mem_cons, List.not_mem_nil, or_false] at hc
    rcases hc with h | h | h <;> (subst h; exact b64Char_mem _)
  | a :: b :: c' :: rest => by
    intro c hc
    simp only [b64EncodeBytes, List.mem_cons] at hc
    rcases hc with h | h | h | h | h
    · subst h; exact b64Char_mem _
    · subst h; exact b64Char_mem _
    · subst h; exact b64Char_mem _
    · subst h; exact b64Char_mem _
    · exact b64EncodeBytes_mem_alphabet rest c h

theorem b64EncodeBytes_filter_ws (bs : List Nat) :
    (b64EncodeBytes bs).filter (fun c => !isB64Ws c) = b64EncodeBytes bs := by
  apply List.filter_eq_self.mpr
  intro c hc
  have := (b64Alphabet_props c (b64EncodeBytes_mem_alphabet bs c hc)).2.1
  simpa using this

theorem b64EncodeBytes_no_eq (bs : List Nat) : ¬('=' ∈ b64EncodeBytes bs) := by
  intro h
  exact (b64Alphabet_props '=' (b64EncodeBytes_mem_alphabet bs '=' h)).2.2 rfl

theorem dropTrailingEq_self {l : List Char} (h : ¬('=' ∈ l)) : dropTrailingEq l = l := by
  unfold dropTrailingEq
  split
  · next heq =>
    exfalso
    apply h
    rw [← List.mem_reverse, heq]
    simp
  · next heq =>
    exfalso
    apply h
    rw [← List.mem_reverse, heq]
    simp
  · rfl

theorem b64EncodeBytes_len_mod : ∀ bs : List Nat, ¬((b64EncodeBytes bs).length % 4 = 1)
  | [] => by simp [b64EncodeBytes]
  | [a] => by simp [b64EncodeBytes]
  | [a, b] => by simp [b64EncodeBytes]
  | a :: b :: c :: rest => by
    have ih := b64EncodeBytes_len_mod rest
    simp only [b64EncodeBytes, List.length_cons]
    omega

theorem b64DecodeChunks_encodeBytes :
    ∀ bs : List Nat, (∀ b ∈ bs, b < 256) → b64DecodeChunks (b64EncodeBytes bs) = some bs
  | [], _ => rfl
  | [a], h => by
    have ha : a < 256 := h a (by simp)
    simp only [b64EncodeBytes, b64DecodeChunks,
      b64Idx_b64Char (a / 4) (by omega), b64Idx_b64Char (a % 4 * 16) (by omega)]
    simp only [Option.bind_eq_bind, Option.some_bind]
    congr 2
    omega
  | [a, b], h => by
    have ha : a < 256 := h a (by simp)
    have hb : b < 256 := h b (by simp)
    simp only [b64EncodeBytes, b64DecodeChunks,
      b64Idx_b64Char (a / 4) (by omega), b64Idx_b64Char (a % 4 * 16 + b / 16) (by omega),
      b64Idx_b64Char (b % 16 * 4) (by omega)]
    simp only [Option.bind_eq_bind, Option.some_bind]
    congr 2
    · omega
    · congr 1
      omega
  | a :: b :: c :: rest, h => by
    have ha : a < 256 := h a (by simp)
    have hb : b < 256 := h b (by simp)
    have hc : c < 256 := h c (by simp)
    have ih := b64DecodeChunks_encodeBytes rest (fun x hx => h x (by simp [hx]))
    simp only [b64EncodeBytes, b64DecodeChunks,
      b64Idx_b64Char (a / 4) (by omega), b64Idx_b64Char (a % 4 * 16 + b / 16) (by omega),
      b64Idx_b64Char (b % 16 * 4 + c / 64) (by omega), b64Idx_b64Char (c % 64) (by omega), ih]
    simp only [Option.bind_eq_bind, Option.some_bind]
    congr 2
    · omega
    · congr 1
      · omega
      · congr 1
        omega

theorem b64DecodeBytes_encodeBytes {bs : List Nat} (h : ∀ b ∈ bs, b < 256) :
    b64DecodeBytes (b64EncodeBytes bs) = some bs := by
  simp only [b64DecodeBytes]
  rw [b64EncodeBytes_filter_ws]
  have hmod := b64EncodeBytes_len_mod bs
  by_cases h4 : (b64EncodeBytes bs).length % 4 = 0
  · rw [if_pos h4, dropTrailingEq_self (b64EncodeBytes_no_eq bs), if_neg hmod]
    exact b64DecodeChunks_encodeBytes bs h
  · rw [if_neg h4, if_neg hmod]
    exact b64DecodeChunks_encodeBytes bs h

/-! ## UTF-8 lemmas -/

theorem utf8EncodeChar_lt (c : Char) : ∀ b ∈ utf8EncodeChar c, b < 256 := by
  have h1 := char_toNat_lt c
  intro b hb
  simp only [utf8EncodeChar] at hb
  split_ifs at hb with h2 h3 h4 <;> simp only [List.mem_cons, List.not_mem_nil, or_false] at hb
  · omega
  · rcases hb with h | h <;> omega
  · rcases hb with h | h | h <;> omega
  · rcases hb with h | h | h | h <;> omega

theorem utf8DecodeAux_encodeChar (fuel : Nat) (c : Char) (rest : List Nat) :
    utf8DecodeAux (fuel + 1) (utf8EncodeChar c ++ rest) =
      (utf8DecodeAux fuel rest).map (fun cs => c :: cs) := by
  have hv := char_toNat_lt c
  have hs := char_not_surrogate c
  have hofn : Char.ofNat c.toNat = c := Char.ofNat_toNat c
  simp only [utf8EncodeChar]
  split_ifs with h1 h2 h3
  · simp only [List.cons_append, List.nil_append, utf8DecodeAux]
    rw [if_pos h1, hofn]
    simp only [List.append_eq, List.nil_append]
  · simp only [List.cons_append, List.nil_append, utf8DecodeAux]
    rw [if_neg (by omega), if_neg (by omega), if_pos (by omega)]
    have hval : utf8Valid2 (192 + c.toNat / 64) (128 + c.toNat % 64) = true := by
      unfold utf8Valid2 utf8Val2 contByte
      simp only [Bool.and_eq_true, decide_eq_true_eq]
      omega
    have hn : utf8Val2 (192 + c.toNat / 64) (128 + c.toNat % 64) = c.toNat := by
      unfold utf8Val2; omega
    simp only [List.append_eq, List.cons_append, List.nil_append, split1,
      Option.bind_eq_bind, Option.some_bind, hval, if_pos, hn, hofn]
  · simp only [List.cons_append, List.nil_append, utf8DecodeAux]
    rw [if_neg (by omega), if_neg (by omega), if_neg (by omega), if_pos (by omega)]
    have hval : utf8Valid3 (224 + c.toNat / 4096) (128 + c.toNat / 64 % 64)
        (128 + c.toNat % 64) = true := by
      unfold utf8Valid3 utf8Val3 contByte
      simp only [Bool.and_eq_true, Bool.or_eq_true, decide_eq_true_eq]
      omega
    have hn : utf8Val3 (224 + c.toNat / 4096) (128 + c.toNat / 64 % 64)
        (128 + c.toNat % 64) = c.toNat := by
      unfold utf8Val3; omega
    simp only [List.append_eq, List.cons_append, List.nil_append, split2,
      Option.bind_eq_bind, Option.some_bind, hval, if_pos, hn, hofn]
  · simp only [List.cons_append, List.nil_append, utf8DecodeAux]
    rw [if_neg (by omega), if_neg (by omega), if_neg (by omega), if_neg (by omega),
      if_pos (by omega)]
    have hval : utf8Valid4 (240 + c.toNat / 262144) (128 + c.toNat / 4096 % 64)
        (128 + c.toNat / 64 % 64) (128 + c.toNat % 64) = true := by
      unfold utf8Valid4 utf8Val4 contByte
      simp only [Bool.and_eq_true, decide_eq_true_eq]
      omega
    have hn : utf8Val4 (240 + c.toNat / 262144) (128 + c.toNat / 4096 % 64)
        (128 + c.toNat / 64 % 64) (128 + c.toNat % 64) = c.toNat := by
      unfold utf8Val4; omega
    simp only [List.append_eq, List.cons_append, List.nil_append, split3,
      Option.bind_eq_bind, Option.some_bind, hval, if_pos, hn, hofn]

theorem utf8DecodeAux_utf8Encode :
    ∀ (s : List Char) (fuel : Nat), s.length ≤ fuel →
      utf8DecodeAux fuel (utf8Encode s) = some s := by
  intro s
  induction s with
  | nil =>
    intro fuel _
    show utf8DecodeAux fuel [] = some []
    cases fuel <;> rfl
  | cons c rest ih =>
    intro fuel hf
    match fuel, hf with
    | f + 1, hf =>
      have henc : utf8Encode (c :: rest) = utf8EncodeChar c ++ utf8Encode rest := by
        simp [utf8Encode]
      have hlen : rest.length ≤ f := by simp at hf; omega
      rw [henc, utf8DecodeAux_encodeChar, ih f hlen]
      rfl

theorem utf8EncodeChar_length_pos (c : Char) : 1 ≤ (utf8EncodeChar c).length := by
  simp only [utf8EncodeChar]
  split_ifs <;> simp

theorem utf8Encode_length_ge (s : List Char) : s.length ≤ (utf8Encode s).length := by
  induction s with
  | nil => simp [utf8Encode]
  | cons c rest ih =>
    have henc : utf8Encode (c :: rest) = utf8EncodeChar c ++ utf8Encode rest := by
      simp [utf8Encode]
    rw [henc]
    have := utf8EncodeChar_length_pos c
    simp only [List.length_append, List.length_cons]
    omega

theorem utf8Decode_utf8Encode (s : List Char) : utf8Decode (utf8Encode s) = some s := by
  unfold utf8Decode
  exact utf8DecodeAux_utf8Encode s _ (by have := utf8Encode_length_ge s; omega)

theorem utf8Encode_lt (s : List Char) : ∀ b ∈ utf8Encode s, b < 256 := by
  intro b hb
  simp only [utf8Encode, List.mem_flatten, List.mem_map] at hb
  obtain ⟨l, ⟨c, _, hl⟩, hbl⟩ := hb
  exact utf8EncodeChar_lt c b (hl ▸ hbl)

/-- Round trip of the composite escaping:
`decodeURIComponent(escape(atob(...)))` undoes
`btoa(unescape(encodeURIComponent(str)))` exactly. -/
theorem b64Decode_b64Encode (s : List Char) : b64Decode (b64Encode s) = s := by
  unfold b64Encode b64Decode
  rw [b64DecodeBytes_encodeBytes (utf8Encode_lt s)]
  dsimp only
  rw [utf8Decode_utf8Encode]

/-! ## Lemmas about the safe-value class and decodeValue -/

theorem isSafeChar_toNat_lt {c : Char} (h : isSafeChar c = true) : c.toNat < 128 := by
  unfold isSafeChar at h
  simp only [Bool.or_eq_true, Bool.and_eq_true, decide_eq_true_eq] at h
  rcases h with ((((⟨_, h2⟩ | ⟨_, h2⟩) | ⟨_, h2⟩) | h) | h)
  · have : c.toNat ≤ 122 := by exact_mod_cast Char.le_def.mp h2
    omega
  · have : c.toNat ≤ 90 := by exact_mod_cast Char.le_def.mp h2
    omega
  · have : c.toNat ≤ 57 := by exact_mod_cast Char.le_def.mp h2
    omega
  · subst h; decide
  · subst h; decide

theorem not_safeValue_of_witness {s : List Char} {c : Char} (hc : c ∈ s)
    (hbad : isSafeChar c = false) : isSafeValue s = false := by
  have hall : s.all isSafeChar = false := by
    cases h : s.all isSafeChar
    · rfl
    · have := List.all_eq_true.mp h c hc
      rw [hbad] at this
      cases this
  unfold isSafeValue
  rw [hall]
  simp

theorem decodeValue_tilde (rest : List Char) :
    decodeValue ('~' :: rest) = .str (b64Decode rest) := rfl

theorem decodeScalar_tilde (rest : List Char) :
    decodeScalar ('~' :: rest) = .str (b64Decode rest) := rfl

theorem decodeValue_not_tilde {c : Char} (hc : ¬(c = '~')) (cs : List Char) :
    decodeValue (c :: cs) =
      if (c :: cs).any (fun x => x == ',') then
        .arr ((splitOnChar ',' (c :: cs)).map decodeScalar)
      else if isIntString (c :: cs) then .num (intStringVal (c :: cs))
      else .str (c :: cs) := by
  unfold decodeValue
  rw [if_neg (by simp)]
  split
  · next heq =>
    exfalso
    apply hc
    injection heq with h1 _
  · rfl

theorem decodeScalar_not_tilde {c : Char} (hc : ¬(c = '~')) (cs : List Char) :
    decodeScalar (c :: cs) =
      if isIntString (c :: cs) then .num (intStringVal (c :: cs))
      else .str (c :: cs) := by
  unfold decodeScalar
  rw [if_neg (by simp)]
  split
  · next heq =>
    exfalso
    apply hc
    injection heq with h1 _
  · rfl

theorem splitOnChar_parts_no_sep {sep : Char} :
    ∀ (s : List Char), ∀ part ∈ splitOnChar sep s, ∀ c ∈ part, ¬(c = sep) := by
  intro s
  induction s with
  | nil =>
    intro part hp c hcp
    simp [splitOnChar] at hp
    subst hp
    cases hcp
  | cons a rest ih =>
    intro part hp c hcp
    simp only [splitOnChar] at hp
    by_cases ha : a = sep
    · rw [if_pos ha] at hp
      rcases List.mem_cons.mp hp with h | h
      · subst h; cases hcp
      · exact ih part h c hcp
    · rw [if_neg ha] at hp
      match hsplit : splitOnChar sep rest with
      | [] => exact absurd hsplit (splitOnChar_ne_nil sep rest)
      | t :: ts =>
        rw [hsplit] at hp
        rcases List.mem_cons.mp hp with h | h
        · subst h
          rcases List.mem_cons.mp hcp with h | h
          · subst h; exact ha
          · exact ih t (by simp [hsplit]) c h
        · exact ih part (by simp [hsplit, h]) c hcp

theorem decodeValue_eq_decodeScalar {s : List Char} (h : ∀ c ∈ s, ¬(c = ',')) :
    decodeValue s = decodeScalar s := by
  match s with
  | [] => rfl
  | '~' :: rest => rfl
  | c :: cs =>
    by_cases hc : c = '~'
    · subst hc; rfl
    · rw [decodeValue_not_tilde hc, decodeScalar_not_tilde hc]
      have hnc : (c :: cs).any (fun x => x == ',') = false := by
        rw [List.any_eq_false]
        intro x hx
        simpa using h x hx
      rw [hnc]
      simp

/-! ## Decimal digit strings -/

theorem digitChar_props : ∀ d : Nat, d < 10 →
    (digitChar d).isDigit = true ∧ (digitChar d).toNat - '0'.toNat = d ∧
      isSafeChar (digitChar d) = true := by
  decide

theorem digitsVal_append (xs : List Char) (c : Char) :
    digitsVal (xs ++ [c]) = digitsVal xs * 10 + (c.toNat - '0'.toNat) := by
  unfold digitsVal
  rw [List.foldl_append]
  rfl

theorem natDigitsAux_spec : ∀ (fuel n : Nat), n < fuel →
    natDigitsAux fuel n ≠ [] ∧ (∀ c ∈ natDigitsAux fuel n, c.isDigit = true) ∧
      digitsVal (natDigitsAux fuel n) = n
  | 0, n, h => absurd h (by omega)
  | fuel + 1, n, h => by
    by_cases h10 : n < 10
    · refine ⟨by simp [natDigitsAux, h10], ?_, ?_⟩
      · intro c hc
        simp only [natDigitsAux, if_pos h10, List.mem_cons, List.not_mem_nil, or_false] at hc
        subst hc
        exact (digitChar_props n h10).1
      · simp only [natDigitsAux, if_pos h10]
        have := (digitChar_props n h10).2.1
        unfold digitsVal
        simpa using this
    · have hrec := natDigitsAux_spec fuel (n / 10) (by omega)
      refine ⟨by simp [natDigitsAux, h10], ?_, ?_⟩
      · intro c hc
        simp only [natDigitsAux, if_neg h10, List.mem_append, List.mem_cons, List.not_mem_nil,
          or_false] at hc
        rcases hc with hc | hc
        · exact hrec.2.1 c hc
        · subst hc
          exact (digitChar_props (n % 10) (by omega)).1
      · simp only [natDigitsAux, if_neg h10]
        rw [digitsVal_append, hrec.2.2, (digitChar_props (n % 10) (by omega)).2.1]
        omega

theorem natDigits_ne_nil (n : Nat) : natDigits n ≠ [] :=
  (natDigitsAux_spec (n + 1) n (by omega)).1

theorem natDigits_digits (n : Nat) : ∀ c ∈ natDigits n, c.isDigit = true :=
  (natDigitsAux_spec (n + 1) n (by omega)).2.1

theorem natDigits_val (n : Nat) : digitsVal (natDigits n) = n :=
  (natDigitsAux_spec (n + 1) n (by omega)).2.2

theorem isDigit_isSafeChar {c : Char} (h : c.isDigit = true) : isSafeChar c = true := by
  unfold Char.isDigit at h
  unfold isSafeChar
  simp only [Bool.and_eq_true, decide_eq_true_eq] at h
  simp only [Bool.or_eq_true, Bool.and_eq_true, decide_eq_true_eq]
  tauto

theorem isDigit_ne {c : Char} (h : c.isDigit = true) :
    ¬(c = '-') ∧ ¬(c = '~') ∧ ¬(c = ',') := by
  unfold Char.isDigit at h
  simp only [Bool.and_eq_true, decide_eq_true_eq] at h
  refine ⟨?_, ?_, ?_⟩ <;> (rintro rfl; revert h; decide)

theorem intToString_chars (n : Int) :
    ∀ c ∈ intToString n, isSafeChar c = true := by
  intro c hc
  unfold intToString at hc
  split_ifs at hc
  · rcases List.mem_cons.mp hc with h | h
    · subst h; decide
    · exact isDigit_isSafeChar (natDigits_digits _ c h)
  · exact isDigit_isSafeChar (natDigits_digits _ c hc)

theorem intStringVal_digits {ds : List Char} (hne : ds ≠ [])
    (hd : ∀ c ∈ ds, c.isDigit = true) : intStringVal ds = (digitsVal ds : Int) := by
  match ds, hne with
  | c :: cs, _ =>
    have hc := hd c (by simp)
    unfold intStringVal
    split
    · next heq =>
      exfalso
      injection heq with h1 _
      exact (isDigit_ne hc).1 h1
    · rfl

theorem isIntString_digits {ds : List Char} (hne : ds ≠ [])
    (hd : ∀ c ∈ ds, c.isDigit = true) : isIntString ds = true := by
  match ds, hne with
  | c :: cs, _ =>
    have hc := hd c (by simp)
    unfold isIntString
    split
    · next heq =>
      exfalso
      injection heq with h1 _
      exact (isDigit_ne hc).1 h1
    · simp only [Bool.and_eq_true, Bool.not_eq_eq_eq_not, Bool.not_false, List.all_eq_true]
      exact ⟨by simp, fun x hx => hd x hx⟩

theorem intToString_spec (n : Int) :
    isIntString (intToString n) = true ∧ intStringVal (intToString n) = n := by
  unfold intToString
  split_ifs with hneg
  · constructor
    · show isIntString ('-' :: natDigits n.natAbs) = true
      unfold isIntString
      simp only [Bool.and_eq_true, Bool.not_eq_eq_eq_not, Bool.not_false, List.all_eq_true]
      exact ⟨by simp [natDigits_ne_nil], fun x hx => natDigits_digits _ x hx⟩
    · show intStringVal ('-' :: natDigits n.natAbs) = n
      have hredux : intStringVal ('-' :: natDigits n.natAbs) =
          -((digitsVal (natDigits n.natAbs) : Nat) : Int) := rfl
      rw [hredux, natDigits_val]
      omega
  · constructor
    · exact isIntString_digits (natDigits_ne_nil _) (natDigits_digits _)
    · rw [intStringVal_digits (natDigits_ne_nil _) (natDigits_digits _), natDigits_val]
      omega

/-! ## Value round-trip lemmas -/

theorem isSafeChar_ne {c : Char} (h : isSafeChar c = true) :
    ¬(c = '~') ∧ ¬(c = ',') ∧ ¬(c = ';') ∧ ¬(c = ':') ∧ ¬(c = '.') := by
  refine ⟨?_, ?_, ?_, ?_, ?_⟩ <;> (rintro rfl; revert h; decide)

theorem safe_or_tilde_ne {c : Char} (h : isSafeChar c = true ∨ c = '~') :
    ¬(c = ',') ∧ ¬(c = ';') ∧ ¬(c = ':') := by
  rcases h with h | rfl
  · exact ⟨(isSafeChar_ne h).2.1, (isSafeChar_ne h).2.2.1, (isSafeChar_ne h).2.2.2.1⟩
  · refine ⟨?_, ?_, ?_⟩ <;> decide

theorem isIntString_chars {s : List Char} (h : isIntString s = true) :
    s ≠ [] ∧ ∀ c ∈ s, c.isDigit = true ∨ c = '-' := by
  unfold isIntString at h
  split at h
  all_goals
    simp only [Bool.and_eq_true, Bool.not_eq_eq_eq_not, Bool.not_false, List.all_eq_true] at h
  · refine ⟨by simp, ?_⟩
    intro c hc
    rcases List.mem_cons.mp hc with h' | h'
    · right; exact h'
    · left; exact h.2 c h'
  · exact ⟨by simpa using h.1, fun c hc => Or.inl (h.2 c hc)⟩

theorem isIntString_safe {s : List Char} (h : isIntString s = true) : isSafeValue s = true := by
  obtain ⟨hne, hch⟩ := isIntString_chars h
  unfold isSafeValue
  simp only [Bool.and_eq_true, Bool.not_eq_eq_eq_not, Bool.not_false, List.all_eq_true]
  refine ⟨by simpa using hne, ?_⟩
  intro c hc
  rcases hch c hc with h' | h'
  · exact isDigit_isSafeChar h'
  · subst h'; decide

theorem isSafeValue_chars {s : List Char} (h : isSafeValue s = true) :
    s ≠ [] ∧ ∀ c ∈ s, isSafeChar c = true := by
  unfold isSafeValue at h
  simp only [Bool.and_eq_true, Bool.not_eq_eq_eq_not, Bool.not_false, List.all_eq_true] at h
  exact ⟨by simpa using h.1, h.2⟩

theorem encodeValue_scalar_chars {v : JVal} (h : isScalar v = true) :
    ∀ c ∈ encodeValue v, isSafeChar c = true ∨ c = '~' := by
  intro c hc
  cases v with
  | num n =>
    left
    exact intToString_chars n c hc
  | bool b =>
    left
    cases b <;>
      (simp only [encodeValue, jstr] at hc
       rcases List.mem_singleton.mp hc with rfl
       decide)
  | str s =>
    by_cases hse : s = []
    · subst hse; simp [encodeValue] at hc
    · by_cases hsafe : isSafeValue s
      · left
        simp only [encodeValue, if_neg hse, if_pos hsafe] at hc
        exact (isSafeValue_chars hsafe).2 c hc
      · simp only [encodeValue, if_neg hse, if_neg hsafe, List.mem_cons] at hc
        rcases hc with rfl | hc
        · right; rfl
        · left
          exact (b64Alphabet_props c (b64EncodeBytes_mem_alphabet _ c hc)).1
  | nan => simp [isScalar] at h
  | arr xs => simp [isScalar] at h
  | obj fs => simp [isScalar] at h

theorem encodeValue_not_escaped_chars {v : JVal} (h : isScalar v = true)
    (hesc : isEscapedString v = false) : ∀ c ∈ encodeValue v, isSafeChar c = true := by
  intro c hc
  cases v with
  | str s =>
    by_cases hse : s = []
    · subst hse; simp [encodeValue] at hc
    · by_cases hsafe : isSafeValue s
      · simp only [encodeValue, if_neg hse, if_pos hsafe] at hc
        exact (isSafeValue_chars hsafe).2 c hc
      · exfalso
        unfold isEscapedString at hesc
        revert hesc
        simp [hse, hsafe]
  | num n => exact intToString_chars n c hc
  | bool b =>
    cases b <;>
      (simp only [encodeValue, jstr] at hc
       rcases List.mem_singleton.mp hc with rfl
       decide)
  | nan => simp [isScalar] at h
  | arr xs => simp [isScalar] at h
  | obj fs => simp [isScalar] at h

theorem decodeScalar_encodeValue {v : JVal} (h : isScalar v = true) :
    decodeScalar (encodeValue v) = canon v := by
  cases v with
  | num n =>
    have hspec := intToString_spec n
    have hne : intToString n ≠ [] := by
      unfold intToString
      split_ifs
      · simp
      · exact natDigits_ne_nil _
    show decodeScalar (intToString n) = canon (.num n)
    obtain ⟨c, cs, hs⟩ : ∃ c cs, intToString n = c :: cs := by
      cases h' : intToString n with
      | nil => exact absurd h' hne
      | cons c cs => exact ⟨c, cs, rfl⟩
    have hcm : c ∈ intToString n := by rw [hs]; simp
    have hcsafe := intToString_chars n c hcm
    have hc : ¬(c = '~') := (isSafeChar_ne hcsafe).1
    rw [hs, decodeScalar_not_tilde hc, ← hs, if_pos hspec.1, hspec.2]
    rfl
  | bool b => cases b <;> rfl
  | str s =>
    by_cases hse : s = []
    · subst hse; rfl
    · by_cases hsafe : isSafeValue s
      · have henc : encodeValue (.str s) = s := by simp [encodeValue, hse, hsafe]
        rw [henc]
        match s, hse with
        | c :: cs, _ =>
          have hcsafe : isSafeChar c = true := (isSafeValue_chars hsafe).2 c (by simp)
          rw [decodeScalar_not_tilde (isSafeChar_ne hcsafe).1]
          rfl
      · have henc : encodeValue (.str s) = '~' :: b64Encode s := by
          simp [encodeValue, hse, hsafe]
        rw [henc, decodeScalar_tilde, b64Decode_b64Encode]
        have hint : isIntString s = false := by
          cases h2 : isIntString s
          · rfl
          · exact absurd (isIntString_safe h2) (by simp [hsafe])
        unfold canon
        rw [if_neg (by simp [hint])]
  | nan => simp [isScalar] at h
  | arr xs => simp [isScalar] at h
  | obj fs => simp [isScalar] at h

theorem decodeValue_encodeValue_scalar {v : JVal} (h : isScalar v = true) :
    decodeValue (encodeValue v) = canon v := by
  rw [decodeValue_eq_decodeScalar
    (fun c hc => (safe_or_tilde_ne (encodeValue_scalar_chars h c hc)).1)]
  exact decodeScalar_encodeValue h

theorem encodeValueList_map (xs : List JVal) : encodeValueList xs = xs.map encodeValue := by
  induction xs with
  | nil => rfl
  | cons x rest ih => simp [encodeValueList, ih]

theorem canonList_map (xs : List JVal) : canonList xs = xs.map canon := by
  induction xs with
  | nil => rfl
  | cons x rest ih => simp [canonList, ih]

theorem decodeValue_encodeValue_arr {xs : List JVal} (h : goodArr xs = true) :
    decodeValue (encodeValue (.arr xs)) = canon (.arr xs) := by
  match xs with
  | [] => rfl
  | [x] =>
    have hx : isScalar x = true := by simpa [goodArr] using h
    have henc : encodeValue (.arr [x]) = encodeValue x := by
      show joinWith ',' (encodeValueList [x]) = encodeValue x
      rfl
    rw [henc, decodeValue_encodeValue_scalar hx]
    rfl
  | x :: y :: rest =>
    have hx : isScalar x = true := by
      unfold goodArr at h
      simp only [Bool.and_eq_true] at h
      exact h.1.1
    have hesc : isEscapedString x = false := by
      unfold goodArr at h
      simp only [Bool.and_eq_true, Bool.not_eq_eq_eq_not, Bool.not_true] at h
      exact h.1.2
    have hall : ∀ z ∈ (x :: y :: rest), isScalar z = true := by
      unfold goodArr at h
      simp only [Bool.and_eq_true, List.all_eq_true] at h
      intro z hz
      rcases List.mem_cons.mp hz with rfl | hz
      · exact h.1.1
      · exact h.2 z hz
    have henc : encodeValue (.arr (x :: y :: rest)) =
        encodeValue x ++ ',' :: joinWith ',' ((y :: rest).map encodeValue) := by
      show joinWith ',' (encodeValueList (x :: y :: rest)) = _
      rw [encodeValueList_map]
      rfl
    have hsplit : splitOnChar ',' (encodeValue x ++ ',' :: joinWith ',' ((y :: rest).map encodeValue)) =
        (x :: y :: rest).map encodeValue := by
      have := @splitOnChar_joinWith ',' ((x :: y :: rest).map encodeValue)
        (by simp) ?_
      · rw [← this]
        rfl
      · intro p hp c hc
        obtain ⟨z, hz, rfl⟩ := List.mem_map.mp hp
        exact (safe_or_tilde_ne (encodeValue_scalar_chars (hall z hz) c hc)).1
    have hmem : ',' ∈ encodeValue x ++ ',' :: joinWith ',' ((y :: rest).map encodeValue) := by
      simp
    match hj : encodeValue x ++ ',' :: joinWith ',' ((y :: rest).map encodeValue), hmem with
    | c0 :: rs, _ =>
      have hc0 : ¬(c0 = '~') := by
        match hex : encodeValue x, hj with
        | [], hj =>
          simp only [List.nil_append] at hj
          injection hj with h1 _
          subst h1
          decide
        | e0 :: es, hj =>
          simp only [List.cons_append] at hj
          injection hj with h1 _
          subst h1
          have := encodeValue_not_escaped_chars hx hesc e0 (by rw [hex]; simp)
          exact (isSafeChar_ne this).1
      have hcomma : (c0 :: rs).any (fun c => c == ',') = true := by
        rw [List.any_eq_true]
        exact ⟨',', hj ▸ hmem, by simp⟩
      rw [henc, hj, decodeValue_not_tilde hc0, if_pos hcomma, ← hj, hsplit]
      show JVal.arr _ = canon (.arr (x :: y :: rest))
      have : canon (.arr (x :: y :: rest)) = .arr (canonList (x :: y :: rest)) := rfl
      rw [this, canonList_map]
      congr 1
      rw [List.map_map]
      apply List.map_congr_left
      intro z hz
      exact decodeScalar_encodeValue (hall z hz)

theorem decodeValue_encodeValue_good {v : JVal} (h : GoodVal v = true)
    (hno : ∀ fs, ¬(v = .obj fs)) : decodeValue (encodeValue v) = canon v := by
  cases v with
  | num n => exact decodeValue_encodeValue_scalar rfl
  | bool b => exact decodeValue_encodeValue_scalar rfl
  | str s => exact decodeValue_encodeValue_scalar rfl
  | nan => simp [GoodVal] at h
  | arr xs =>
    refine decodeValue_encodeValue_arr ?_
    simp only [GoodVal, Bool.and_eq_true] at h
    exact h.1
  | obj fs => exact absurd rfl (hno fs)

/-! ## Object-model lemmas: setKey, lookupKey, setPath, insertAll -/

theorem setKey_of_lookup_none {A : List (List Char × JVal)} {k : List Char} (v : JVal)
    (h : lookupKey A k = none) : setKey A k v = A ++ [(k, v)] := by
  induction A with
  | nil => rfl
  | cons p rest ih =>
    obtain ⟨k', v'⟩ := p
    by_cases hk : k' = k
    · simp [lookupKey, hk] at h
    · simp only [lookupKey, if_neg hk] at h
      simp [setKey, hk, ih h]

theorem lookupKey_setKey_self (A : List (List Char × JVal)) (k : List Char) (v : JVal) :
    lookupKey (setKey A k v) k = some v := by
  induction A with
  | nil => simp [setKey, lookupKey]
  | cons p rest ih =>
    obtain ⟨k', v'⟩ := p
    by_cases hk : k' = k
    · simp [setKey, lookupKey, hk]
    · simp [setKey, lookupKey, hk, ih]

theorem setKey_setKey (A : List (List Char × JVal)) (k : List Char) (x y : JVal) :
    setKey (setKey A k x) k y = setKey A k y := by
  induction A with
  | nil => simp [setKey]
  | cons p rest ih =>
    obtain ⟨k', v'⟩ := p
    by_cases hk : k' = k
    · simp [setKey, hk]
    · simp [setKey, hk, ih]

theorem setKey_of_lookup_some {A : List (List Char × JVal)} {k : List Char} {v : JVal}
    (h : lookupKey A k = some v) : setKey A k v = A := by
  induction A with
  | nil => simp [lookupKey] at h
  | cons p rest ih =>
    obtain ⟨k', v'⟩ := p
    by_cases hk : k' = k
    · simp only [lookupKey, if_pos hk, Option.some.injEq] at h
      simp [setKey, hk, h]
    · simp only [lookupKey, if_neg hk] at h
      simp [setKey, hk, ih h]

theorem lookupKey_append_right {A : List (List Char × JVal)} {k : List Char} (v : JVal)
    (h : lookupKey A k = none) : lookupKey (A ++ [(k, v)]) k = some v := by
  induction A with
  | nil => simp [lookupKey]
  | cons p rest ih =>
    obtain ⟨k', v'⟩ := p
    by_cases hk : k' = k
    · simp [lookupKey, hk] at h
    · simp only [lookupKey, if_neg hk] at h
      simp [lookupKey, hk, ih h]

theorem lookupKey_append_of_ne {A : List (List Char × JVal)} {k k' : List Char} (v : JVal)
    (h : lookupKey A k' = none) (hne : ¬(k' = k)) :
    lookupKey (A ++ [(k, v)]) k' = none := by
  induction A with
  | nil =>
    simp only [List.nil_append, lookupKey,
      if_neg (show ¬(k = k') from fun h' => hne h'.symm)]
  | cons p rest ih =>
    obtain ⟨k'', v''⟩ := p
    by_cases hk : k'' = k'
    · simp [lookupKey, hk] at h
    · simp only [lookupKey, if_neg hk] at h
      simp [lookupKey, hk, ih h]

theorem setKey_append_last {A : List (List Char × JVal)} {k : List Char} (x y : JVal)
    (h : lookupKey A k = none) : setKey (A ++ [(k, x)]) k y = A ++ [(k, y)] := by
  induction A with
  | nil => simp [setKey]
  | cons p rest ih =>
    obtain ⟨k', v'⟩ := p
    by_cases hk : k' = k
    · simp [lookupKey, hk] at h
    · simp only [lookupKey, if_neg hk] at h
      simp [setKey, hk, ih h]

theorem insertAll_cons (A : List (List Char × JVal)) (p : List Char × JVal)
    (ps : List (List Char × JVal)) :
    insertAll A (p :: ps) =
      (setPath A (splitOnChar '.' p.1) p.2).bind (fun A' => insertAll A' ps) := by
  show List.foldlM _ _ _ = _
  rw [List.foldlM_cons]
  cases setPath A (splitOnChar '.' p.1) p.2 <;> rfl

theorem setPath_cons_none {A : List (List Char × JVal)} {k : List Char}
    (q : List Char) (qs : List (List Char)) (v : JVal) (h : lookupKey A k = none)
    (hp : ¬(k ∈ protoNames)) :
    setPath A (k :: q :: qs) v =
      (setPath [] (q :: qs) v).map (fun sub => setKey A k (.obj sub)) := by
  simp only [setPath, h, if_neg hp]

theorem setPath_cons_obj {A B : List (List Char × JVal)} {k : List Char}
    (q : List Char) (qs : List (List Char)) (v : JVal) (h : lookupKey A k = some (.obj B)) :
    setPath A (k :: q :: qs) v =
      (setPath B (q :: qs) v).map (fun sub => setKey A k (.obj sub)) := by
  simp only [setPath, h]

theorem insertAll_prefixed {k : List Char} (hk : ∀ c ∈ k, ¬(c = '.')) :
    ∀ (pairs : List (List Char × JVal)) (A B : List (List Char × JVal)),
      lookupKey A k = some (.obj B) →
      insertAll A (pairs.map (fun p => (k ++ '.' :: p.1, p.2))) =
        (insertAll B pairs).map (fun B' => setKey A k (.obj B')) := by
  intro pairs
  induction pairs with
  | nil =>
    intro A B hAB
    show Except.ok A = (Except.ok B).map _
    rw [show (Except.ok B).map (fun B' => setKey A k (JVal.obj B')) =
      Except.ok (setKey A k (.obj B)) from rfl, setKey_of_lookup_some hAB]
  | cons p ps ih =>
    intro A B hAB
    rw [List.map_cons, insertAll_cons]
    show (setPath A (splitOnChar '.' (k ++ '.' :: p.1)) p.2).bind _ = _
    rw [splitOnChar_append_sep hk]
    obtain ⟨q, qs, hq⟩ : ∃ q qs, splitOnChar '.' p.1 = q :: qs := by
      cases h' : splitOnChar '.' p.1 with
      | nil => exact absurd h' (splitOnChar_ne_nil '.' p.1)
      | cons q qs => exact ⟨q, qs, rfl⟩
    rw [hq, setPath_cons_obj q qs p.2 hAB, insertAll_cons, hq]
    cases hsp : setPath B (q :: qs) p.2 with
    | error e => rfl
    | ok B1 =>
      show insertAll (setKey A k (.obj B1)) (ps.map _) = _
      rw [ih (setKey A k (.obj B1)) B1 (lookupKey_setKey_self A k (.obj B1))]
      cases hrec : insertAll B1 ps <;> simp [hrec, Except.map, Except.bind, setKey_setKey]

theorem insertAll_prefixed_new {k : List Char} (hk : ∀ c ∈ k, ¬(c = '.'))
    (hkp : ¬(k ∈ protoNames)) :
    ∀ (p : List Char × JVal) (ps A : List (List Char × JVal)),
      lookupKey A k = none →
      insertAll A ((p :: ps).map (fun q => (k ++ '.' :: q.1, q.2))) =
        (insertAll [] (p :: ps)).map (fun B' => A ++ [(k, .obj B')]) := by
  intro p ps A hA
  rw [List.map_cons, insertAll_cons]
  show (setPath A (splitOnChar '.' (k ++ '.' :: p.1)) p.2).bind _ = _
  rw [splitOnChar_append_sep hk]
  obtain ⟨q, qs, hq⟩ : ∃ q qs, splitOnChar '.' p.1 = q :: qs := by
    cases h' : splitOnChar '.' p.1 with
    | nil => exact absurd h' (splitOnChar_ne_nil '.' p.1)
    | cons q qs => exact ⟨q, qs, rfl⟩
  rw [hq, setPath_cons_none q qs p.2 hA hkp, insertAll_cons, hq]
  cases hsp : setPath [] (q :: qs) p.2 with
  | error e => rfl
  | ok B1 =>
    show insertAll (setKey A k (.obj B1)) (ps.map _) = _
    rw [setKey_of_lookup_none _ hA,
      insertAll_prefixed hk ps (A ++ [(k, .obj B1)]) B1 (lookupKey_append_right _ hA)]
    cases hrec : insertAll B1 ps <;>
      simp [hrec, Except.map, Except.bind, setKey_append_last _ _ hA]

/-! ## Flatten lemmas -/

theorem goodKey_props {k : List Char} (h : goodKey k = true) :
    ¬(k = []) ∧ (∀ c ∈ k, ¬(c = '.') ∧ ¬(c = ':') ∧ ¬(c = ';')) ∧
      ¬(k = jstr "v") ∧ ¬(k = jstr "o") ∧ ¬(k = jstr "_v") ∧ ¬(k = jstr "_o") ∧
      ¬(k ∈ protoNames) := by
  unfold goodKey at h
  simp only [Bool.and_eq_true] at h
  obtain ⟨⟨⟨h1, h2⟩, h3⟩, h4⟩ := h
  simp only [Bool.not_eq_true', Bool.or_eq_false_iff, decide_eq_false_iff_not] at h3
  simp only [Bool.not_eq_true', decide_eq_false_iff_not] at h4
  refine ⟨by simpa using h1, ?_, h3.1.1.1, h3.1.1.2, h3.1.2, h3.2, h4⟩
  intro c hc
  have hch := List.all_eq_true.mp h2 c hc
  unfold goodKeyChar at hch
  simp only [Bool.not_eq_true', Bool.or_eq_false_iff, decide_eq_false_iff_not] at hch
  exact ⟨hch.1.1, hch.1.2, hch.2⟩

theorem GoodObj_cons {k : List Char} {v : JVal} {rest : List (List Char × JVal)}
    (h : GoodObj ((k, v) :: rest) = true) :
    goodKey k = true ∧ (∀ p ∈ rest, ¬(p.1 = k)) ∧ GoodVal v = true ∧ GoodObj rest = true := by
  unfold GoodObj at h
  simp only [Bool.and_eq_true, List.all_eq_true, Bool.not_eq_eq_eq_not, Bool.not_true,
    decide_eq_false_iff_not] at h
  exact ⟨h.1.1.1, fun p hp => h.1.1.2 p hp, h.1.2, h.2⟩

theorem GoodVal_obj {fs : List (List Char × JVal)} (h : GoodVal (.obj fs) = true) :
    ¬(fs = []) ∧ GoodObj fs = true := by
  unfold GoodVal at h
  simp only [Bool.and_eq_true, Bool.not_eq_eq_eq_not, Bool.not_true] at h
  exact ⟨by simpa using h.1, h.2⟩

theorem flattenFields_cons (pre k : List Char) (v : JVal) (rest : List (List Char × JVal)) :
    flattenFields pre ((k, v) :: rest) = flattenVal pre k v ++ flattenFields pre rest := rfl

theorem flattenVal_nil_scalar (k : List Char) {v : JVal} (h : ∀ fs, ¬(v = JVal.obj fs)) :
    flattenVal [] k v = [(k, v)] := by
  cases v with
  | obj fs => exact absurd rfl (h fs)
  | num n => rfl
  | nan => rfl
  | bool b => rfl
  | str s => rfl
  | arr xs => rfl

theorem flattenFields_prefixDot :
    ∀ (n : Nat) (gs : List (List Char × JVal)), sizeOf gs ≤ n → GoodObj gs = true →
      ∀ pre : List Char, ¬(pre = []) →
        flattenFields pre gs = (flattenFields [] gs).map (fun p => (pre ++ '.' :: p.1, p.2)) := by
  intro n
  induction n with
  | zero =>
    intro gs hgs
    exfalso
    cases gs with
    | nil => simp at hgs
    | cons p rest =>
      simp only [List.cons.sizeOf_spec] at hgs
      omega
  | succ n ih =>
    intro gs hgs hgood pre hpre
    match gs with
    | [] => rfl
    | (k, v) :: rest =>
      have hsz : sizeOf rest ≤ n ∧ sizeOf v ≤ n := by
        simp only [List.cons.sizeOf_spec, Prod.mk.sizeOf_spec] at hgs
        omega
      obtain ⟨hgk, hnodup, hgv, hgrest⟩ := GoodObj_cons hgood
      have hkne : ¬(k = []) := (goodKey_props hgk).1
      rw [flattenFields_cons, flattenFields_cons, List.map_append,
        ih rest hsz.1 hgrest pre hpre]
      congr 1
      cases v with
      | obj gs2 =>
        have hsz2 : sizeOf gs2 ≤ n := by
          have := hsz.2
          simp only [JVal.obj.sizeOf_spec] at this
          omega
        obtain ⟨hne2, hgood2⟩ := GoodVal_obj hgv
        show flattenFields (if pre = [] then k else pre ++ '.' :: k) gs2 =
          (flattenFields (if ([] : List Char) = [] then k else _) gs2).map _
        rw [if_neg hpre, if_pos rfl]
        rw [ih gs2 hsz2 hgood2 (pre ++ '.' :: k) (by simp),
          ih gs2 hsz2 hgood2 k hkne, List.map_map]
        apply List.map_congr_left
        intro p _
        simp [List.append_assoc]
      | num m => simp [flattenVal, if_neg hpre]
      | nan => simp [flattenVal, if_neg hpre]
      | bool b => simp [flattenVal, if_neg hpre]
      | str s => simp [flattenVal, if_neg hpre]
      | arr xs => simp [flattenVal, if_neg hpre]

theorem flattenFields_ne_nil :
    ∀ (n : Nat) (gs : List (List Char × JVal)), sizeOf gs ≤ n → GoodObj gs = true →
      ¬(gs = []) → ∀ pre, ¬(flattenFields pre gs = []) := by
  intro n
  induction n with
  | zero =>
    intro gs hgs
    exfalso
    cases gs with
    | nil => simp at hgs
    | cons p rest =>
      simp only [List.cons.sizeOf_spec] at hgs
      omega
  | succ n ih =>
    intro gs hgs hgood hne pre
    match gs with
    | (k, v) :: rest =>
      have hsz : sizeOf rest ≤ n ∧ sizeOf v ≤ n := by
        simp only [List.cons.sizeOf_spec, Prod.mk.sizeOf_spec] at hgs
        omega
      obtain ⟨hgk, hnodup, hgv, hgrest⟩ := GoodObj_cons hgood
      rw [flattenFields_cons]
      intro happ
      rw [List.append_eq_nil] at happ
      have hval : ¬(flattenVal pre k v = []) := by
        cases v with
        | obj gs2 =>
          have hsz2 : sizeOf gs2 ≤ n := by
            have := hsz.2
            simp only [JVal.obj.sizeOf_spec] at this
            omega
          obtain ⟨hne2, hgood2⟩ := GoodVal_obj hgv
          show ¬(flattenFields _ gs2 = [])
          exact ih gs2 hsz2 hgood2 hne2 _
        | num m => simp [flattenVal]
        | nan => simp [flattenVal]
        | bool b => simp [flattenVal]
        | str s => simp [flattenVal]
        | arr xs => simp [flattenVal]
      exact hval happ.1

theorem flattenFields_leaves :
    ∀ (n : Nat) (gs : List (List Char × JVal)), sizeOf gs ≤ n → GoodObj gs = true →
      ∀ p ∈ flattenFields [] gs,
        GoodVal p.2 = true ∧ (∀ fs, ¬(p.2 = JVal.obj fs)) ∧
          (∀ part ∈ splitOnChar '.' p.1, goodKey part = true) := by
  intro n
  induction n with
  | zero =>
    intro gs hgs
    exfalso
    cases gs with
    | nil => simp at hgs
    | cons p rest =>
      simp only [List.cons.sizeOf_spec] at hgs
      omega
  | succ n ih =>
    intro gs hgs hgood p hp
    match gs with
    | [] => simp [flattenFields] at hp
    | (k, v) :: rest =>
      have hsz : sizeOf rest ≤ n ∧ sizeOf v ≤ n := by
        simp only [List.cons.sizeOf_spec, Prod.mk.sizeOf_spec] at hgs
        omega
      obtain ⟨hgk, hnodup, hgv, hgrest⟩ := GoodObj_cons hgood
      have hkdot : ∀ c ∈ k, ¬(c = '.') := fun c hc => ((goodKey_props hgk).2.1 c hc).1
      rw [flattenFields_cons] at hp
      rcases List.mem_append.mp hp with hp | hp
      · by_cases hobj : ∃ gs2, v = JVal.obj gs2
        · obtain ⟨gs2, rfl⟩ := hobj
          have hsz2 : sizeOf gs2 ≤ n := by
            have := hsz.2
            simp only [JVal.obj.sizeOf_spec] at this
            omega
          obtain ⟨hne2, hgood2⟩ := GoodVal_obj hgv
          have hflat : flattenVal [] k (.obj gs2) = flattenFields k gs2 := rfl
          rw [hflat, flattenFields_prefixDot n gs2 hsz2 hgood2 k (goodKey_props hgk).1] at hp
          obtain ⟨q, hq, rfl⟩ := List.mem_map.mp hp
          obtain ⟨hqv, hqno, hqparts⟩ := ih gs2 hsz2 hgood2 q hq
          refine ⟨hqv, hqno, ?_⟩
          intro part hpart
          rw [show ((k ++ '.' :: q.1, q.2) : List Char × JVal).1 = k ++ '.' :: q.1 from rfl,
            splitOnChar_append_sep hkdot] at hpart
          rcases List.mem_cons.mp hpart with rfl | hpart
          · exact hgk
          · exact hqparts part hpart
        · have hscal : ∀ fs, ¬(v = JVal.obj fs) := fun fs hf => hobj ⟨fs, hf⟩
          rw [flattenVal_nil_scalar k hscal] at hp
          rcases List.mem_singleton.mp hp with rfl
          refine ⟨hgv, hscal, ?_⟩
          rw [show ((k, v) : List Char × JVal).1 = k from rfl, splitOnChar_no_sep hkdot]
          intro part hpart
          rcases List.mem_singleton.mp hpart with rfl
          exact hgk
      · exact ih rest hsz.1 hgrest p hp

/-! ## The main unflatten-flatten inversion -/

theorem insertAll_append (A : List (List Char × JVal)) (ps qs : List (List Char × JVal)) :
    insertAll A (ps ++ qs) = (insertAll A ps).bind (fun A' => insertAll A' qs) := by
  show List.foldlM _ _ _ = _
  rw [List.foldlM_append]
  rfl

theorem insertAll_flatten :
    ∀ (n : Nat) (fs : List (List Char × JVal)), sizeOf fs ≤ n → GoodObj fs = true →
      ∀ A, (∀ p ∈ fs, lookupKey A p.1 = none) →
        insertAll A ((flattenFields [] fs).map (fun p => (p.1, canon p.2))) =
          .ok (A ++ canonFields fs) := by
  intro n
  induction n with
  | zero =>
    intro fs hfs
    exfalso
    cases fs with
    | nil => simp at hfs
    | cons p rest =>
      simp only [List.cons.sizeOf_spec] at hfs
      omega
  | succ n ih =>
    intro fs hfs hgood A hA
    match fs with
    | [] =>
      show Except.ok A = Except.ok (A ++ canonFields [])
      simp [canonFields]
    | (k, v) :: rest =>
      have hsz : sizeOf rest ≤ n ∧ sizeOf v ≤ n := by
        simp only [List.cons.sizeOf_spec, Prod.mk.sizeOf_spec] at hfs
        omega
      obtain ⟨hgk, hnodup, hgv, hgrest⟩ := GoodObj_cons hgood
      have hkdot : ∀ c ∈ k, ¬(c = '.') := fun c hc => ((goodKey_props hgk).2.1 c hc).1
      have hkpr : ¬(k ∈ protoNames) := (goodKey_props hgk).2.2.2.2.2.2
      have hkne : ¬(k = jstr "__proto__") := fun he => hkpr (he ▸ (by decide))
      have hAk : lookupKey A k = none := hA (k, v) (by simp)
      have hrest_disj : ∀ (x : JVal), ∀ p ∈ rest, lookupKey (A ++ [(k, x)]) p.1 = none :=
        fun x p hp => lookupKey_append_of_ne x (hA p (by simp [hp])) (hnodup p hp)
      rw [flattenFields_cons, List.map_append, insertAll_append]
      by_cases hobj : ∃ gs2, v = JVal.obj gs2
      · obtain ⟨gs2, rfl⟩ := hobj
        have hsz2 : sizeOf gs2 ≤ n := by
          have := hsz.2
          simp only [JVal.obj.sizeOf_spec] at this
          omega
        obtain ⟨hne2, hgood2⟩ := GoodVal_obj hgv
        have hflat : flattenVal [] k (.obj gs2) = flattenFields k gs2 := rfl
        rw [hflat, flattenFields_prefixDot n gs2 hsz2 hgood2 k (goodKey_props hgk).1,
          List.map_map]
        have hcomm : ((flattenFields [] gs2).map
              ((fun p => (p.1, canon p.2)) ∘ fun p => (k ++ '.' :: p.1, p.2))) =
            (((flattenFields [] gs2).map (fun p => (p.1, canon p.2))).map
              (fun q => (k ++ '.' :: q.1, q.2))) := by
          rw [List.map_map]
          apply List.map_congr_left
          intro p _
          rfl
        rw [hcomm]
        obtain ⟨q0, qrest, hq⟩ : ∃ q0 qrest,
            (flattenFields [] gs2).map (fun p => (p.1, canon p.2)) = q0 :: qrest := by
          cases h' : (flattenFields [] gs2).map (fun p => (p.1, canon p.2)) with
          | nil =>
            exfalso
            rw [List.map_eq_nil_iff] at h'
            exact flattenFields_ne_nil n gs2 hsz2 hgood2 hne2 [] h'
          | cons q0 qrest => exact ⟨q0, qrest, rfl⟩
        rw [hq, insertAll_prefixed_new hkdot hkpr q0 qrest A hAk, ← hq,
          ih gs2 hsz2 hgood2 [] (fun p _ => rfl)]
        show (insertAll (A ++ [(k, JVal.obj ([] ++ canonFields gs2))]) _) = _
        rw [List.nil_append,
          ih rest hsz.1 hgrest (A ++ [(k, JVal.obj (canonFields gs2))])
            (hrest_disj (JVal.obj (canonFields gs2)))]
        have hcf : canonFields ((k, JVal.obj gs2) :: rest) =
            (k, JVal.obj (canonFields gs2)) :: canonFields rest := rfl
        rw [hcf, List.append_assoc]
        rfl
      · have hscal : ∀ fs', ¬(v = JVal.obj fs') := fun fs' hf => hobj ⟨fs', hf⟩
        rw [flattenVal_nil_scalar k hscal]
        rw [show ([(k, v)].map (fun p => (p.1, canon p.2))) = [(k, canon v)] from rfl]
        rw [insertAll_cons, splitOnChar_no_sep hkdot]
        show ((Except.ok (jsAssign A k (canon v))).bind _) = _
        rw [show jsAssign A k (canon v) = setKey A k (canon v) from if_neg hkne,
          setKey_of_lookup_none _ hAk]
        show insertAll (A ++ [(k, canon v)]) _ = _
        rw [ih rest hsz.1 hgrest _ (hrest_disj _)]
        have hcf : canonFields ((k, v) :: rest) = (k, canon v) :: canonFields rest := rfl
        rw [hcf, List.append_assoc]
        rfl

/-! ## Segment-level lemmas towards the encode/decode round trip -/

theorem GoodObj_keys {fs : List (List Char × JVal)} (h : GoodObj fs = true) :
    ∀ p ∈ fs, goodKey p.1 = true := by
  induction fs with
  | nil => intro p hp; cases hp
  | cons q rest ih =>
    obtain ⟨k, v⟩ := q
    obtain ⟨hk, _, _, hrest⟩ := GoodObj_cons h
    intro p hp
    rcases List.mem_cons.mp hp with rfl | hp
    · exact hk
    · exact ih hrest p hp

theorem goodArr_all_scalar {xs : List JVal} (h : goodArr xs = true) :
    ∀ x ∈ xs, isScalar x = true := by
  match xs with
  | [] => intro x hx; cases hx
  | [x] =>
    intro z hz
    rcases List.mem_singleton.mp hz with rfl
    exact h
  | x :: y :: rest =>
    simp only [goodArr, Bool.and_eq_true, List.all_eq_true] at h
    intro z hz
    rcases List.mem_cons.mp hz with rfl | hz
    · exact h.1.1
    · exact h.2 z hz

theorem encodeValue_good_chars {v : JVal} (h : GoodVal v = true)
    (hno : ∀ fs, ¬(v = JVal.obj fs)) :
    ∀ c ∈ encodeValue v, isSafeChar c = true ∨ c = '~' ∨ c = ',' := by
  intro c hc
  cases v with
  | num n =>
    rcases @encodeValue_scalar_chars (.num n) rfl c hc with h' | h'
    · exact Or.inl h'
    · exact Or.inr (Or.inl h')
  | bool b =>
    rcases @encodeValue_scalar_chars (.bool b) rfl c hc with h' | h'
    · exact Or.inl h'
    · exact Or.inr (Or.inl h')
  | str s =>
    rcases @encodeValue_scalar_chars (.str s) rfl c hc with h' | h'
    · exact Or.inl h'
    · exact Or.inr (Or.inl h')
  | nan => simp [GoodVal] at h
  | obj fs => exact absurd rfl (hno fs)
  | arr xs =>
    have hg : goodArr xs = true := by
      simp only [GoodVal, Bool.and_eq_true] at h
      exact h.1
    rw [show encodeValue (.arr xs) = joinWith ',' (encodeValueList xs) from rfl] at hc
    rcases mem_joinWith hc with ⟨s, hs, hcs⟩ | rfl
    · rw [encodeValueList_map] at hs
      obtain ⟨x, hx, rfl⟩ := List.mem_map.mp hs
      rcases encodeValue_scalar_chars (goodArr_all_scalar hg x hx) c hcs with h' | h'
      · exact Or.inl h'
      · exact Or.inr (Or.inl h')
    · exact Or.inr (Or.inr rfl)

theorem flattened_key_facts {d : List (List Char × JVal)} (hd : GoodObj d = true) :
    ∀ p ∈ flattenFields [] d,
      (∀ c ∈ p.1, ¬(c = ':') ∧ ¬(c = ';')) ∧ ¬(p.1 = jstr "v") ∧ ¬(p.1 = jstr "o") ∧
        ¬(p.1 = jstr "_v") ∧ ¬(p.1 = jstr "_o") := by
  intro p hp
  have hparts := (flattenFields_leaves (sizeOf d) d le_rfl hd p hp).2.2
  refine ⟨?_, ?_, ?_, ?_, ?_⟩
  · intro c hc
    rcases @mem_splitOnChar_cover '.' _ _ hc with ⟨seg, hs, hcs⟩ | rfl
    · have h' := (goodKey_props (hparts seg hs)).2.1 c hcs
      exact ⟨h'.2.1, h'.2.2⟩
    · exact ⟨by decide, by decide⟩
  · intro heq
    exact absurd (hparts (jstr "v") (by rw [heq]; decide)) (by decide)
  · intro heq
    exact absurd (hparts (jstr "o") (by rw [heq]; decide)) (by decide)
  · intro heq
    exact absurd (hparts (jstr "_v") (by rw [heq]; decide)) (by decide)
  · intro heq
    exact absurd (hparts (jstr "_o") (by rw [heq]; decide)) (by decide)

theorem decodeSegs_encoded :
    ∀ (ps : List (List Char × JVal)),
      (∀ p ∈ ps, (∀ c ∈ p.1, ¬(c = ':')) ∧ ¬(p.1 = jstr "v") ∧ ¬(p.1 = jstr "o") ∧
        decodeValue (encodeValue p.2) = canon p.2) →
      decodeSegs (ps.map (fun kv => kv.1 ++ ':' :: encodeValue kv.2)) =
        ps.map (fun p => (p.1, canon p.2)) := by
  intro ps
  induction ps with
  | nil => intro _; rfl
  | cons p rest ih =>
    intro h
    obtain ⟨hcolon, hv, ho, hdec⟩ := h p (by simp)
    obtain ⟨k, v⟩ := p
    simp only [List.map_cons]
    have hne : ¬((k ++ ':' :: encodeValue v) = []) := by simp
    have hstep : decodeSegs ((k ++ ':' :: encodeValue v) ::
          rest.map (fun kv => kv.1 ++ ':' :: encodeValue kv.2)) =
        (if k = jstr "v" then (jstr "_v", jsParseInt (encodeValue v))
         else if k = jstr "o" then (jstr "_o", JVal.str (encodeValue v))
         else (k, decodeValue (encodeValue v))) ::
          decodeSegs (rest.map (fun kv => kv.1 ++ ':' :: encodeValue kv.2)) := by
      simp only [decodeSegs, if_neg hne, splitAtFirst_append hcolon]
    rw [hstep, if_neg hv, if_neg ho, hdec, ih (fun q hq => h q (by simp [hq]))]

/-! ## Lemmas about decode's segment loop and assessment -/

theorem decodeSegs_of_no_colon {segs : List (List Char)}
    (h : ∀ seg ∈ segs, ∀ c ∈ seg, ¬(c = ':')) : decodeSegs segs = [] := by
  induction segs with
  | nil => rfl
  | cons seg rest ih =>
    have hrest := ih (fun u hu => h u (by simp [hu]))
    by_cases hne : seg = []
    · simp [decodeSegs, hne, hrest]
    · simp [decodeSegs, hne, splitAtFirst_of_no_sep (h seg (by simp)), hrest]

theorem assessRules_eq_find (rules : List CompiledRule) (ctx : List (List Char × RVal)) :
    assessRules rules ctx =
      match rules.find? (fun r => truthy (r.evaluator ctx)) with
      | some r => ⟨r.level, r.color, r.label⟩
      | none => ⟨jstr "info", jstr "6b7280", jstr "Documented"⟩ := by
  induction rules with
  | nil => rfl
  | cons r rest ih =>
    by_cases h : truthy (r.evaluator ctx)
    · simp [assessRules, h, List.find?]
    · simp only [assessRules, if_neg h, List.find?]
      rw [ih]
      simp [show (truthy (r.evaluator ctx) = false) from by simpa using h]

/-! ## Claim C2 (corrected): totality and malformed inputs of decode -/

/-- C2 (counterexample): contrary to the claim, `decode "not a valid
statement"` does not return null; the lone segment has no `:`, is silently
skipped, and the empty pair list unflattens to the empty mapping `{}`. -/
theorem C2_no_colon_counterexample :
    decode (jstr "not a valid statement") = some [] := rfl

/-- C2 (amended): `decode` is total and never throws; it returns null for
the empty string, but for a nonempty input with no `:` in any segment it
returns the empty mapping `{}` (not null), and corrupt base64 in a
`~`-prefixed value yields that field as the empty string (not null). -/
theorem C2_decode_malformed :
    decode [] = none
    ∧ (∀ s : List Char, ¬(s = []) → (∀ c ∈ s, ¬(c = ':')) → decode s = some [])
    ∧ decode (jstr "v:1;o:co;notes:~???") =
        some [(jstr "_v", .num 1), (jstr "_o", .str (jstr "co")), (jstr "notes", .str [])] := by
  refine ⟨rfl, ?_, rfl⟩
  intro s hne h
  have hsegs : decodeSegs (splitOnChar ';' s) = [] :=
    decodeSegs_of_no_colon (fun seg hseg c hc => h c (mem_of_mem_splitOnChar hseg hc))
  simp only [decode, if_neg hne, hsegs]
  rfl

/-- C2 (witness). -/
theorem C2_decode_malformed_witness :
    decode (jstr "just some words") = some [] :=
  C2_decode_malformed.2.1 (jstr "just some words") (by decide) (by decide)

/-! ## Claim C3 (confirmed): AND/OR fold strictly left-to-right -/

/-- C3: AND and OR have the same precedence and fold strictly left-to-right:
for all identifiers `a`, `b`, `c` the token stream of `a AND b OR c` parses
as `(a AND b) OR c`, and the compiled rule evaluates to `true` on
`{a: true, b: false, c: true}`. -/
theorem C3_and_or_left_fold :
    (∀ a b c : List Char,
        parse [.identifier a, .andTok, .identifier b, .orTok, .identifier c, .eof] =
          .ok (.or (.and (.var a) (.var b)) (.var c)))
    ∧ (compile (jstr "a AND b OR c")).map
        (fun f => f [(jstr "a", .bool true), (jstr "b", .bool false), (jstr "c", .bool true)]) =
      .ok (.bool true) :=
  ⟨fun _ _ _ => rfl, rfl⟩

/-! ## Claim C4 (corrected): unflatten collision behaviour -/

/-- C4 (counterexample): contrary to the claim, a later nested path through
a key holding an earlier scalar does not silently replace the scalar: the
strict-mode `TypeError` makes `decode` return null. -/
theorem C4_nested_after_scalar_counterexample :
    decode (jstr "v:1;o:co;a:1;a.b:2") = none := rfl

/-- C4 (amended): for a dot-free key other than the inherited `__proto__`
accessor, a later pair silently overwrites whatever value (including a
nested object) an earlier pair built at that key, and decode of such a pair
list succeeds; a later `__proto__` pair is consumed by the inherited
accessor and writes no own key; and in the other direction — a later nested
path through a key holding an earlier scalar — `unflatten` throws a
strict-mode `TypeError` and decode returns null instead of succeeding. -/
theorem C4_unflatten_overwrite :
    (∀ (pairs : List (List Char × JVal)) (k : List Char) (v : JVal),
        (∀ c ∈ k, ¬(c = '.')) → ¬(k = jstr "__proto__") →
        unflatten (pairs ++ [(k, v)]) = (unflatten pairs).map (fun fs => setKey fs k v))
    ∧ decode (jstr "v:1;o:co;a.b:2;a:1") =
        some [(jstr "_v", .num 1), (jstr "_o", .str (jstr "co")), (jstr "a", .num 1)]
    ∧ decode (jstr "v:1;o:co;a:1;a.b:2") = none
    ∧ decode (jstr "v:1;o:co;__proto__:x") =
        some [(jstr "_v", .num 1), (jstr "_o", .str (jstr "co"))] := by
  refine ⟨?_, rfl, rfl, rfl⟩
  intro pairs k v h h2
  simp only [unflatten, List.foldlM_append, List.foldlM, splitOnChar_no_sep h, setPath,
    jsAssign, if_neg h2]
  cases List.foldlM (fun a kv => setPath a (splitOnChar '.' kv.1) kv.2) [] pairs <;> rfl

/-- C4 (witness). -/
theorem C4_unflatten_overwrite_witness :
    unflatten [(jstr "a.b", JVal.num 2), (jstr "a", JVal.num 1)] =
      (unflatten [(jstr "a.b", JVal.num 2)]).map (fun fs => setKey fs (jstr "a") (JVal.num 1)) :=
  C4_unflatten_overwrite.1 [(jstr "a.b", JVal.num 2)] (jstr "a") (JVal.num 1)
    (by decide) (by decide)

/-! ## Claim C5 (corrected): lenient defaults of the evaluator -/

/-- C5 (counterexample): contrary to the claim, an identifier absent from
the context does not always default: for a name `Object.prototype` already
provides, `ctx[name] ?? false` yields the truthy inherited member, so
`compile("toString")({})` evaluates truthy instead of false, and
`compile("toString <= 5")({})` is false (the member coerces to `NaN`)
although the claimed default-to-`0` would make `0 <= 5` true. -/
theorem C5_proto_member_counterexample :
    (compile (jstr "toString")).map (fun f => truthy (f [])) = .ok true
    ∧ (compile (jstr "toString <= 5")).map (fun f => f []) = .ok (.bool false)
    ∧ cmpEval .le (.num 0) (.num 5) = true :=
  ⟨rfl, rfl, rfl⟩

/-- C5 (amended): rule evaluation is total over the embedding, and an
identifier that is neither a context entry nor an inherited
`Object.prototype` member defaults to `false` as a standalone factor and to
`0` on either side of a comparison; in particular
`compile("x >= 1")({})` is `false`. -/
theorem C5_eval_missing_defaults :
    (∀ (ctx : List (List Char × RVal)) (n : List Char),
        lookupKey ctx n = none → ¬(n ∈ protoNames) →
        evaluate (.var n) ctx = .bool false)
    ∧ (∀ (ctx : List (List Char × RVal)) (n : List Char) (op : Cmp) (q : Rat),
        lookupKey ctx n = none → ¬(n ∈ protoNames) →
        evaluate (.compare n op (.rnum q)) ctx = .bool (cmpEval op (.num 0) (.num q)))
    ∧ (∀ (ctx : List (List Char × RVal)) (l r : List Char) (op : Cmp),
        lookupKey ctx r = none → ¬(r ∈ protoNames) →
        evaluate (.compare l op (.rvar r)) ctx =
          .bool (cmpEval op ((ctxGet ctx l).getD (.num 0)) (.num 0)))
    ∧ (compile (jstr "x >= 1")).map (fun f => f []) = .ok (.bool false) := by
  refine ⟨?_, ?_, ?_, rfl⟩
  · intro ctx n h hp; simp [evaluate, ctxGet, h, hp]
  · intro ctx n op q h hp; simp [evaluate, ctxGet, h, hp]
  · intro ctx l r op h hp; simp [evaluate, ctxGet, h, hp]

/-- C5 (witness). -/
theorem C5_eval_missing_defaults_witness :
    evaluate (.var (jstr "x")) [] = .bool false :=
  C5_eval_missing_defaults.1 [] (jstr "x") rfl (by decide)

/-! ## Claim C6 (confirmed): escaping round trip -/

/-- C6: for every string containing `;` or `:` or a non-ASCII character,
encoding produces a `~`-prefixed segment whose payload uses only safe
base64url characters, and decoding that segment reproduces the original
string exactly. -/
theorem C6_escape_roundtrip :
    ∀ s : List Char, (∃ c ∈ s, c = ';' ∨ c = ':' ∨ 128 ≤ c.toNat) →
      encodeValue (.str s) = '~' :: b64Encode s
      ∧ (∀ c ∈ b64Encode s, isSafeChar c = true)
      ∧ decodeValue (encodeValue (.str s)) = .str s := by
  rintro s ⟨c0, hc0, hbad⟩
  have hne : ¬(s = []) := by rintro rfl; cases hc0
  have hbadchar : isSafeChar c0 = false := by
    rcases hbad with h | h | h
    · subst h; decide
    · subst h; decide
    · cases hsafe : isSafeChar c0
      · rfl
      · exfalso
        have := isSafeChar_toNat_lt hsafe
        omega
  have hunsafe : isSafeValue s = false := not_safeValue_of_witness hc0 hbadchar
  have henc : encodeValue (.str s) = '~' :: b64Encode s := by
    simp [encodeValue, hne, hunsafe]
  refine ⟨henc, ?_, ?_⟩
  · intro c hc
    exact (b64Alphabet_props c (b64EncodeBytes_mem_alphabet _ c hc)).1
  · rw [henc, decodeValue_tilde, b64Decode_b64Encode]

/-- C6 (witness). -/
theorem C6_escape_roundtrip_witness :
    decodeValue (encodeValue (.str (jstr "a;b"))) = .str (jstr "a;b") :=
  (C6_escape_roundtrip (jstr "a;b") ⟨';', by decide, Or.inl rfl⟩).2.2

/-! ## Claim C7 (confirmed): classification order of the value decoder -/

/-- C7: `decodeValue` classifies in this exact order — the empty string
first, then the `~` prefix (base64url-decoding the entire remainder as one
unit, never comma-splitting it), then the comma split into recursively
decoded elements, then the integer regex, else the literal string. -/
theorem C7_decode_value_order :
    decodeValue [] = .str []
    ∧ (∀ rest : List Char, decodeValue ('~' :: rest) = .str (b64Decode rest))
    ∧ (∀ s : List Char, ¬(s = []) → ¬(s.head? = some '~') →
        s.any (fun c => c == ',') = true →
        decodeValue s = .arr ((splitOnChar ',' s).map decodeValue))
    ∧ (∀ s : List Char, ¬(s = []) → ¬(s.head? = some '~') →
        ¬(s.any (fun c => c == ',') = true) → isIntString s = true →
        decodeValue s = .num (intStringVal s))
    ∧ (∀ s : List Char, ¬(s = []) → ¬(s.head? = some '~') →
        ¬(s.any (fun c => c == ',') = true) → ¬(isIntString s = true) →
        decodeValue s = .str s) := by
  refine ⟨rfl, fun rest => rfl, ?_, ?_, ?_⟩
  · intro s hne hhead hcomma
    match s, hne with
    | c :: cs, _ =>
      have hc : ¬(c = '~') := by
        intro h
        subst h
        exact hhead rfl
      rw [decodeValue_not_tilde hc, if_pos hcomma]
      congr 1
      apply List.map_congr_left
      intro part hp
      exact (decodeValue_eq_decodeScalar (splitOnChar_parts_no_sep _ part hp)).symm
  · intro s hne hhead hcomma hint
    match s, hne with
    | c :: cs, _ =>
      have hc : ¬(c = '~') := by
        intro h
        subst h
        exact hhead rfl
      rw [decodeValue_not_tilde hc, if_neg hcomma, if_pos hint]
  · intro s hne hhead hcomma hint
    match s, hne with
    | c :: cs, _ =>
      have hc : ¬(c = '~') := by
        intro h
        subst h
        exact hhead rfl
      rw [decodeValue_not_tilde hc, if_neg hcomma, if_neg hint]

/-- C7 (witness). -/
theorem C7_decode_value_order_witness :
    decodeValue (jstr "a,b") = .arr ((splitOnChar ',' (jstr "a,b")).map decodeValue) :=
  C7_decode_value_order.2.2.1 (jstr "a,b") (by decide) (by decide) (by decide)

/-! ## Claim C8 (confirmed): rule compilation fails loudly -/

/-- C9: `assess` returns the outcome of the first rule (in list order) whose
evaluator is truthy on the computed context, and the default outcome when
none matches; with rules `a` (level A) and `true` (level B) compiled by the
rule engine and a context where `a` is `false`, it returns level `B`. -/
theorem C9_assess_first_match :
    (∀ (cfg : Config) (d : List (List Char × JVal)),
        assess (some d) cfg =
          match cfg.compiledRules.find? (fun r => truthy (r.evaluator (computeContext d cfg))) with
          | some r => ⟨r.level, r.color, r.label⟩
          | none => ⟨jstr "info", jstr "6b7280", jstr "Documented"⟩)
    ∧ computeContext []
        { fields := [], computed := [(jstr "a", .includesAny (jstr "x") [.str (jstr "v")])],
          compiledRules := [] } = [(jstr "a", .bool false)]
    ∧ (do
        let r1 ← compileRule (jstr "a") (jstr "A") (jstr "green") (jstr "RuleA")
        let r2 ← compileRule (jstr "true") (jstr "B") (jstr "gray") (jstr "RuleB")
        pure ((assess (some [])
          { fields := [],
            computed := [(jstr "a", .includesAny (jstr "x") [.str (jstr "v")])],
            compiledRules := [r1, r2] }).level)) = Except.ok (jstr "B") :=
  ⟨fun cfg d => assessRules_eq_find cfg.compiledRules (computeContext d cfg), rfl, rfl⟩

/-! ## Claim C10 (confirmed): trailing tokens are ignored -/

/-- C10: the parser does not require the token stream to be exhausted:
`compile("a b")` and `compile("a)")` succeed, and each compiled evaluator
behaves exactly as the evaluator of `compile("a")` on every context. -/
theorem C10_parser_ignores_trailing :
    (compile (jstr "a b")).toOption.isSome = true
    ∧ (compile (jstr "a)")).toOption.isSome = true
    ∧ (∀ ctx, (compile (jstr "a b")).map (fun f => f ctx) = (compile (jstr "a")).map (fun f => f ctx))
    ∧ (∀ ctx, (compile (jstr "a)")).map (fun f => f ctx) = (compile (jstr "a")).map (fun f => f ctx)) :=
  ⟨rfl, rfl, fun _ => rfl, fun _ => rfl⟩

/-! ## Claim C1 (corrected): the encode/decode round trip canonicalizes -/

/-- C1 (counterexample): contrary to the claim, boolean leaves do not
survive the round trip: `decode(encode({flag: true}, "co"))` yields
`{_v: 1, _o: "co", flag: 1}` with the boolean turned into the number `1`,
not `{_v: 1, _o: "co", flag: true}`. -/
theorem C1_boolean_counterexample :
    decode (encode [(jstr "flag", JVal.bool true)] (jstr "co")) =
      some [(jstr "_v", JVal.num 1), (jstr "_o", JVal.str (jstr "co")),
        (jstr "flag", JVal.num 1)] ∧
    ¬(decode (encode [(jstr "flag", JVal.bool true)] (jstr "co")) =
      some [(jstr "_v", JVal.num 1), (jstr "_o", JVal.str (jstr "co")),
        (jstr "flag", JVal.bool true)]) := by
  refine ⟨rfl, fun h => ?_⟩
  rw [show decode (encode [(jstr "flag", JVal.bool true)] (jstr "co")) =
      some [(jstr "_v", JVal.num 1), (jstr "_o", JVal.str (jstr "co")),
        (jstr "flag", JVal.num 1)] from rfl] at h
  simp at h

/-- C1 (amended): for every object `d` of round-tripping shape (`GoodObj`:
nonempty keys free of `.`/`:`/`;`, distinct within each object, distinct
from the reserved `v`/`o`/`_v`/`_o` and not inherited `Object.prototype`
member names such as `toString` or `__proto__`; leaves that are
safe-integer numbers, booleans, strings, or scalar arrays whose first
element of a multi-element array is not `~`-escaped; nested objects
nonempty) and every safe origin string, `decode(encode(d, origin))`
succeeds and returns `d` canonicalized (`canonFields`: booleans become
`1`/`0`, numeric-looking strings become numbers, empty and singleton
arrays collapse) with `_v = 1` and `_o = origin` prepended. -/
theorem C1_roundtrip_canon (d : List (List Char × JVal)) (origin : List Char)
    (hd : GoodObj d = true) (ho : isSafeValue origin = true) :
    decode (encode d origin) =
      some ((jstr "_v", JVal.num 1) :: (jstr "_o", JVal.str origin) :: canonFields d) := by
  have horigne : ¬(origin = []) := (isSafeValue_chars ho).1
  have horigch := (isSafeValue_chars ho).2
  have hEo : encodeValue (JVal.str origin) = origin := by
    simp only [encodeValue, if_neg horigne, if_pos ho]
  have hfilter : (flattenFields [] d).filter
      (fun kv => !(kv.1 = jstr "_v" || kv.1 = jstr "_o")) = flattenFields [] d := by
    rw [List.filter_eq_self]
    intro p hp
    have hf := flattened_key_facts hd p hp
    simp [hf.2.2.2.1, hf.2.2.2.2]
  have hsegs : encode d origin =
      joinWith ';' ((jstr "v" ++ ':' :: encodeValue (JVal.num 1)) ::
        (jstr "o" ++ ':' :: origin) ::
        (flattenFields [] d).map (fun kv => kv.1 ++ ':' :: encodeValue kv.2)) := by
    simp only [encode]
    rw [hfilter]
    simp only [List.cons_append, List.nil_append, List.map_cons]
    rw [hEo]
  have hnosemi : ∀ s ∈ ((jstr "v" ++ ':' :: encodeValue (JVal.num 1)) ::
        (jstr "o" ++ ':' :: origin) ::
        (flattenFields [] d).map (fun kv => kv.1 ++ ':' :: encodeValue kv.2)),
      ∀ c ∈ s, ¬(c = ';') := by
    intro s hs
    rcases List.mem_cons.mp hs with rfl | hs
    · intro c
      revert c
      decide
    rcases List.mem_cons.mp hs with rfl | hs
    · intro c hc
      rcases List.mem_append.mp hc with h | h
      · rw [show jstr "o" = ['o'] from rfl] at h
        obtain rfl := List.mem_singleton.mp h
        decide
      · rcases List.mem_cons.mp h with rfl | h
        · decide
        · exact (isSafeChar_ne (horigch c h)).2.2.1
    · obtain ⟨kv, hkv, rfl⟩ := List.mem_map.mp hs
      have hleaf := flattenFields_leaves (sizeOf d) d le_rfl hd kv hkv
      intro c hc
      rcases List.mem_append.mp hc with h | h
      · exact ((flattened_key_facts hd kv hkv).1 c h).2
      · rcases List.mem_cons.mp h with rfl | h
        · decide
        · rcases encodeValue_good_chars hleaf.1 hleaf.2.1 c h with h' | h' | rfl
          · exact (isSafeChar_ne h').2.2.1
          · subst h'
            decide
          · decide
  have hne : ¬(encode d origin = []) := by
    rw [hsegs]
    exact joinWith_cons_ne_nil ';' _ _ (by simp)
  have hsplit : splitOnChar ';' (encode d origin) =
      (jstr "v" ++ ':' :: encodeValue (JVal.num 1)) ::
        (jstr "o" ++ ':' :: origin) ::
        (flattenFields [] d).map (fun kv => kv.1 ++ ':' :: encodeValue kv.2) := by
    rw [hsegs]
    exact splitOnChar_joinWith (by simp) hnosemi
  have hds : decodeSegs ((jstr "v" ++ ':' :: encodeValue (JVal.num 1)) ::
        (jstr "o" ++ ':' :: origin) ::
        (flattenFields [] d).map (fun kv => kv.1 ++ ':' :: encodeValue kv.2)) =
      (jstr "_v", JVal.num 1) :: (jstr "_o", JVal.str origin) ::
        (flattenFields [] d).map (fun p => (p.1, canon p.2)) := by
    have h1 : ∀ l, decodeSegs ((jstr "v" ++ ':' :: encodeValue (JVal.num 1)) :: l) =
        (jstr "_v", JVal.num 1) :: decodeSegs l := fun l => rfl
    have h2 : ∀ l, decodeSegs ((jstr "o" ++ ':' :: origin) :: l) =
        (jstr "_o", JVal.str origin) :: decodeSegs l := by
      intro l
      have hoc : ∀ c ∈ jstr "o", ¬(c = ':') := by decide
      simp only [decodeSegs, if_neg (show ¬(jstr "o" ++ ':' :: origin = []) by simp),
        splitAtFirst_append hoc]
      simp
      intro hvo
      exact absurd hvo (by decide)
    rw [h1, h2]
    rw [decodeSegs_encoded (flattenFields [] d) ?_]
    intro p hp
    have hf := flattened_key_facts hd p hp
    have hleaf := flattenFields_leaves (sizeOf d) d le_rfl hd p hp
    exact ⟨fun c hc => (hf.1 c hc).1, hf.2.1, hf.2.2.1,
      decodeValue_encodeValue_good hleaf.1 hleaf.2.1⟩
  have hA : ∀ p ∈ d,
      lookupKey [(jstr "_v", JVal.num 1), (jstr "_o", JVal.str origin)] p.1 = none := by
    intro p hp
    have hk := goodKey_props (GoodObj_keys hd p hp)
    have h1 : ¬(jstr "_v" = p.1) := fun h => hk.2.2.2.2.1 h.symm
    have h2 : ¬(jstr "_o" = p.1) := fun h => hk.2.2.2.2.2.1 h.symm
    simp [lookupKey, h1, h2]
  have hunf : unflatten ((jstr "_v", JVal.num 1) :: (jstr "_o", JVal.str origin) ::
        (flattenFields [] d).map (fun p => (p.1, canon p.2))) =
      .ok ((jstr "_v", JVal.num 1) :: (jstr "_o", JVal.str origin) :: canonFields d) := by
    have h0 : unflatten ((jstr "_v", JVal.num 1) :: (jstr "_o", JVal.str origin) ::
          (flattenFields [] d).map (fun p => (p.1, canon p.2))) =
        insertAll [(jstr "_v", JVal.num 1), (jstr "_o", JVal.str origin)]
          ((flattenFields [] d).map (fun p => (p.1, canon p.2))) := rfl
    rw [h0, insertAll_flatten (sizeOf d) d le_rfl hd _ hA]
    rfl
  simp only [decode, if_neg hne, hsplit, hds, hunf]

/-- C1 (witness). -/
theorem C1_roundtrip_canon_witness :
    GoodObj [(jstr "a", JVal.num 5),
      (jstr "b", JVal.obj [(jstr "c", JVal.str (jstr "x y"))]),
      (jstr "cs", JVal.arr [JVal.num 1, JVal.num 2])] = true ∧
    isSafeValue (jstr "co") = true ∧
    decode (encode [(jstr "a", JVal.num 5),
        (jstr "b", JVal.obj [(jstr "c", JVal.str (jstr "x y"))]),
        (jstr "cs", JVal.arr [JVal.num 1, JVal.num 2])] (jstr "co")) =
      some ((jstr "_v", JVal.num 1) :: (jstr "_o", JVal.str (jstr "co")) ::
        canonFields [(jstr "a", JVal.num 5),
          (jstr "b", JVal.obj [(jstr "c", JVal.str (jstr "x y"))]),
          (jstr "cs", JVal.arr [JVal.num 1, JVal.num 2])]) :=
  ⟨by decide, by decide, C1_roundtrip_canon _ _ (by decide) (by decide)⟩

end Coauthored
